import Mathlib

/-!
Verification of the output-compression core of `compressor-ia-context`.

The Rust sources under `src/compress/` are shallowly embedded here.  A Rust
`&str` is modelled as a `List Char`; Rust's byte-oriented operations
(`str::len`, byte-range slicing `&s[..n]`) are modelled through the UTF-8
byte width `Char.utf8Size`.  A byte slice at a non-character boundary
panics in Rust, so slicing is modelled as an `Option`-valued operation and
every compressor that can reach such a slice returns an `Option`.
-/

abbrev Str := List Char

/-- Convert a Lean string literal into the model representation. -/
def chars (s : String) : Str := s.toList

/-- UTF-8 byte length of a string — Rust `str::len`. -/
def byteLen (s : Str) : Nat := (s.map Char.utf8Size).sum

/-- Rust byte slice `&s[..n]`: `some` prefix when `n` bytes is a character
boundary, `none` (a panic) otherwise. -/
def takeBytes : Str → Nat → Option Str
  | _, 0 => some []
  | [], _ + 1 => none
  | c :: t, n + 1 =>
    if c.utf8Size ≤ n + 1 then (takeBytes t (n + 1 - c.utf8Size)).map (c :: ·) else none

/-- Decimal digit character. -/
def digitChar (d : Nat) : Char :=
  if d = 0 then '0' else if d = 1 then '1' else if d = 2 then '2' else if d = 3 then '3'
  else if d = 4 then '4' else if d = 5 then '5' else if d = 6 then '6' else if d = 7 then '7'
  else if d = 8 then '8' else '9'

/-- Fuel-driven decimal rendering (structural, so it reduces in the kernel). -/
def natDigitsAux : Nat → Nat → Str
  | 0, _ => []
  | fuel + 1, n =>
    if n < 10 then [digitChar n]
    else natDigitsAux fuel (n / 10) ++ [digitChar (n % 10)]

/-- Decimal rendering of a natural number — Rust `{}` formatting of `usize`. -/
def natStr (n : Nat) : Str := natDigitsAux (n + 1) n

/-- `p.isPre s` — Rust `s.starts_with(p)`. -/
def isPre : Str → Str → Bool
  | [], _ => true
  | _ :: _, [] => false
  | a :: as_, b :: bs => a == b && isPre as_ bs

/-- Rust `s.ends_with(p)`. -/
def isSuf (p s : Str) : Bool := isPre p.reverse s.reverse

/-- Rust `s.contains(needle)` for a string needle. -/
def containsSub : Str → Str → Bool
  | [], needle => needle.isEmpty
  | h :: t, needle => isPre needle (h :: t) || containsSub t needle

/-- Rust `s.starts_with(c)` for a char pattern. -/
def startsWithChar (c : Char) : Str → Bool
  | [] => false
  | a :: _ => a == c

/-- Rust `char::is_whitespace` (Unicode White_Space). -/
def rustIsWs (c : Char) : Bool :=
  c == ' ' || c == '\t' || c == '\n' || c.val == 11 || c.val == 12 || c == '\r' ||
  c.val == 0x85 || c.val == 0xA0 || c.val == 0x1680 ||
  (0x2000 ≤ c.val && c.val ≤ 0x200A) ||
  c.val == 0x2028 || c.val == 0x2029 || c.val == 0x202F || c.val == 0x205F || c.val == 0x3000

/-- Rust `str::trim`. -/
def rustTrim (s : Str) : Str :=
  ((s.dropWhile rustIsWs).reverse.dropWhile rustIsWs).reverse

/-- One step of `str::trim_start_matches`, iterated with fuel. -/
def trimStartRepAux : Nat → Str → Str → Str
  | 0, _, s => s
  | fuel + 1, p, s =>
    if !p.isEmpty && isPre p s then trimStartRepAux fuel p (s.drop p.length) else s

/-- Rust `s.trim_start_matches(p)`: repeatedly strip the prefix `p`. -/
def trimStartRep (p s : Str) : Str := trimStartRepAux s.length p s

/-- Split a string at a separator character; always at least one segment. -/
def splitOnChar (sep : Char) : Str → List Str
  | [] => [[]]
  | c :: t =>
    if c == sep then [] :: splitOnChar sep t
    else
      match splitOnChar sep t with
      | [] => [[c]]
      | l :: ls => (c :: l) :: ls

/-- Split at newline characters. -/
def splitNL (s : Str) : List Str := splitOnChar '\n' s

/-- Strip one trailing carriage return — the `\r` of a `\r\n` line ending. -/
def stripCR (s : Str) : Str := if s.getLast? = some '\r' then s.dropLast else s

/-- Rust `str::lines`: split at `\n`, drop the final empty segment produced by a
trailing newline, and strip the `\r` of `\r\n` endings (a final segment not
terminated by `\n` keeps any trailing `\r`). -/
def rustLines (s : Str) : List Str :=
  match s with
  | [] => []
  | _ :: _ =>
    let parts := splitNL s
    if parts.getLast? = some [] then parts.dropLast.map stripCR
    else parts.dropLast.map stripCR ++ [(parts.getLast?).getD []]

/-- Join with newlines — Rust `Vec::join("\n")`. -/
def joinNL : List Str → Str
  | [] => []
  | [l] => l
  | l :: l' :: ls => l ++ '\n' :: joinNL (l' :: ls)

/-- Join with an arbitrary separator — Rust `Vec::join(sep)`. -/
def joinSep (sep : Str) : List Str → Str
  | [] => []
  | [l] => l
  | l :: l' :: ls => l ++ sep ++ joinSep sep (l' :: ls)

/-! ## `src/compress/truncate.rs` -/

/-- Per-line cap of `truncate_with`: lines longer than `maxLineLen` bytes are
byte-sliced at `maxLineLen` and get a `" …"` marker; the slice panics (`none`)
at a non-character boundary. -/
def capLine (maxLineLen : Nat) (l : Str) : Option Str :=
  if byteLen l > maxLineLen then (takeBytes l maxLineLen).map (· ++ chars " …")
  else some l

/-- `capLine` applied to every line of the kept prefix. -/
def capLines (maxLineLen : Nat) : List Str → Option (List Str)
  | [] => some []
  | l :: ls =>
    match capLine maxLineLen l, capLines maxLineLen ls with
    | some c, some cs => some (c :: cs)
    | _, _ => none

/-- The overflow summary pushed when the line count exceeds the cap; note the
embedded leading newline from the Rust format string. -/
def overflowMarker (total maxLines : Nat) : Str :=
  chars "\n[cx] … " ++ natStr total ++ chars " lines total, showing first " ++ natStr maxLines

/-- The overflow summary without its leading newline: the extra *line* the
marker contributes after joining. -/
def markerBody (total maxLines : Nat) : Str :=
  chars "[cx] … " ++ natStr total ++ chars " lines total, showing first " ++ natStr maxLines

/-- `truncate_with`: cap total lines and per-line byte length. -/
def truncate_with (raw : Str) (maxLines maxLineLen : Nat) : Option Str :=
  let lines := rustLines raw
  let total := lines.length
  (capLines maxLineLen (lines.take maxLines)).map fun out =>
    joinNL (if total > maxLines then out ++ [overflowMarker total maxLines] else out)

/-- `truncate`: `truncate_with` at the default caps 150 / 300. -/
def truncate (raw : Str) : Option Str := truncate_with raw 150 300

/-- The annotated form of a run of `count` identical lines. -/
def annotRun (cur : Str) (count : Nat) : Str :=
  if count > 1 then cur ++ chars "  (×" ++ natStr count ++ chars ")" else cur

/-- The run-collapsing loop of `dedup_lines`, with the current line and its
count threaded as in the Rust loop. -/
def dedupRuns : List Str → Str → Nat → List Str
  | [], cur, count => [annotRun cur count]
  | l :: ls, cur, count =>
    if l = cur then dedupRuns ls cur (count + 1)
    else annotRun cur count :: dedupRuns ls l 1

/-- `dedup_lines`: collapse consecutive identical lines, then `truncate`. -/
def dedup_lines (raw : Str) : Option Str :=
  match rustLines raw with
  | [] => some []
  | l :: ls => truncate (joinNL (dedupRuns ls l 1))

/-! ## `src/compress/grep.rs` -/

/-- Split a line at its first colon — `line.find(':')` plus the two slices. -/
def splitColon : Str → Option (Str × Str)
  | [] => none
  | c :: t =>
    if c == ':' then some ([], t)
    else (splitColon t).map fun p => (c :: p.1, p.2)

/-- The grouping loop of `compress_grep`: a `file:rest` line extends the last
group when its file matches, otherwise it is pushed as a new group; lines
without a colon touch no group. -/
def grepAccum : List Str → List (Str × List Str) → List (Str × List Str)
  | [], acc => acc
  | l :: ls, acc =>
    match splitColon l with
    | none => grepAccum ls acc
    | some (file, rest) =>
      match acc.getLast? with
      | some (f, ms) =>
        if f = file then grepAccum ls (acc.dropLast ++ [(f, ms ++ [rest])])
        else grepAccum ls (acc ++ [(file, [rest])])
      | none => grepAccum ls (acc ++ [(file, [rest])])

/-- Per-file hit rendering: up to ten hits, each byte-sliced at 200. -/
def grepHits : List Str → Option Str
  | [] => some []
  | m :: ms =>
    match (if byteLen m > 200 then takeBytes m 200 else some m), grepHits ms with
    | some d, some rest => some (chars "  " ++ d ++ chars "\n" ++ rest)
    | _, _ => none

/-- One `── file (k hits)` section of the grep output. -/
def grepSection (g : Str × List Str) : Option Str :=
  (grepHits (g.2.take 10)).map fun shown =>
    chars "\n── " ++ g.1 ++ chars " (" ++ natStr g.2.length ++ chars " hits)\n" ++ shown ++
      (if g.2.length > 10 then chars "  … +" ++ natStr (g.2.length - 10) ++ chars " more\n"
       else [])

/-- All file sections concatenated. -/
def grepSections : List (Str × List Str) → Option Str
  | [] => some []
  | g :: gs =>
    match grepSection g, grepSections gs with
    | some s, some rest => some (s ++ rest)
    | _, _ => none

/-- `compress_grep`: group matches by the leading `file:` prefix. -/
def compress_grep (raw : Str) : Option Str :=
  if rustTrim raw = [] then some (chars "[grep] no matches")
  else
    let lines := rustLines raw
    let files := grepAccum lines []
    (grepSections files).map fun body =>
      chars "[grep] " ++ natStr lines.length ++ chars " matches in " ++
        natStr files.length ++ chars " files\n" ++ body

/-! ## `src/compress/git.rs` -/

/-- The section state of the `git status` scan. -/
inductive StatusSec where
  | none
  | staged
  | unstaged
  | untracked
deriving DecidableEq

/-- The section scan of `compress_status`: header lines switch the section,
hint/blank lines are skipped, indented lines are trimmed into the current
section's list. -/
def statusFold : List Str → StatusSec → List Str × List Str × List Str
  | [], _ => ([], [], [])
  | l :: ls, sec =>
    if isPre (chars "Changes to be committed") l then statusFold ls .staged
    else if isPre (chars "Changes not staged") l then statusFold ls .unstaged
    else if isPre (chars "Untracked files") l then statusFold ls .untracked
    else if startsWithChar '(' (rustTrim l) || l.isEmpty then statusFold ls sec
    else if isPre (chars "\t") l || isPre (chars "  ") l then
      let t := rustTrim l
      let rest := statusFold ls sec
      match sec with
      | .staged => (t :: rest.1, rest.2.1, rest.2.2)
      | .unstaged => (rest.1, t :: rest.2.1, rest.2.2)
      | .untracked => (rest.1, rest.2.1, t :: rest.2.2)
      | .none => rest
    else statusFold ls sec

/-- The branch name reported by `compress_status`. -/
def statusBranch (raw : Str) : Str :=
  match (rustLines raw).find? (fun l => isPre (chars "On branch") l) with
  | some l => trimStartRep (chars "On branch ") l
  | none => chars "(detached)"

/-- The ahead/behind tracking line of `compress_status` (empty when absent). -/
def statusAhead (raw : Str) : Str :=
  ((rustLines raw).find? (fun l => isPre (chars "Your branch") l)).getD []

/-- The text of one `[label n] a, b, c` section summary, newline excluded. -/
def secLineCore (label : Str) (files : List Str) : Str :=
  chars "[" ++ label ++ chars " " ++ natStr files.length ++ chars "] " ++
    joinSep (chars ", ") files

/-- One `[label n] a, b, c` section summary line, emitted only when nonempty. -/
def statusSectionLine (label : Str) (files : List Str) : Str :=
  if files.isEmpty then [] else secLineCore label files ++ chars "\n"

/-- The `[branch] name` header with the optional ahead/behind note. -/
def statusHeadLine (raw : Str) : Str :=
  chars "[branch] " ++ statusBranch raw ++
    (if ¬(statusAhead raw).isEmpty ∧ containsSub (statusAhead raw) (chars "up to date") = false
     then chars " | " ++ rustTrim (statusAhead raw) else [])

/-- `compress_status`: branch header, optional ahead/behind note, one summary
line per nonempty section, `[clean]` when all sections are empty. -/
def compress_status (raw : Str) : Str :=
  let secs := statusFold (rustLines raw) .none
  statusHeadLine raw ++ chars "\n" ++
  statusSectionLine (chars "staged") secs.1 ++
  statusSectionLine (chars "modified") secs.2.1 ++
  statusSectionLine (chars "untracked") secs.2.2 ++
  (if secs.1.isEmpty ∧ secs.2.1.isEmpty ∧ secs.2.2.isEmpty then chars "[clean]\n" else [])

/-- The logical lines of the status output, before newline termination. -/
def statusLogical (raw : Str) : List Str :=
  let secs := statusFold (rustLines raw) .none
  [statusHeadLine raw] ++
  (if secs.1.isEmpty then [] else [secLineCore (chars "staged") secs.1]) ++
  (if secs.2.1.isEmpty then [] else [secLineCore (chars "modified") secs.2.1]) ++
  (if secs.2.2.isEmpty then [] else [secLineCore (chars "untracked") secs.2.2]) ++
  (if secs.1.isEmpty ∧ secs.2.1.isEmpty ∧ secs.2.2.isEmpty then [chars "[clean]"] else [])

/-- The stat-line heuristic of `compress_diff`: a pipe, a `+`/`-`, and fewer
than 120 bytes. -/
def statLike (l : Str) : Bool :=
  l.contains '|' && (l.contains '+' || l.contains '-') && byteLen l < 120

/-- File name extracted from a `diff --git` header: the last space-separated
token with every leading `b/` stripped. -/
def diffFileName (l : Str) : Str :=
  trimStartRep (chars "b/") (((splitOnChar ' ' l).getLast?).getD [])

/-- The flushed `  file: +A -D` summary entry. -/
def diffEntry (f : Str) (adds dels : Nat) : Str :=
  chars "  " ++ f ++ chars ": +" ++ natStr adds ++ chars " -" ++ natStr dels

/-- Flush the current file (if any) into a summary entry. -/
def diffFlush : Option Str → Nat → Nat → List Str
  | some f, adds, dels => [diffEntry f adds dels]
  | none, _, _ => []

/-- The scan of `compress_diff`: stat-like lines are collected verbatim; a
`diff --git` header flushes the current file and starts a new count; `+`/`-`
lines (except the `+++`/`---` identity lines) bump the counters. Returns the
collected stat lines and the flushed per-file summaries. -/
def diffFold : List Str → Option Str → Nat → Nat → List Str × List Str
  | [], cur, adds, dels => ([], diffFlush cur adds dels)
  | l :: ls, cur, adds, dels =>
    if statLike l then
      let r := diffFold ls cur adds dels
      (l :: r.1, r.2)
    else if isPre (chars "diff --git") l then
      let r := diffFold ls (some (diffFileName l)) 0 0
      (r.1, diffFlush cur adds dels ++ r.2)
    else if startsWithChar '+' l && !isPre (chars "+++") l then
      diffFold ls cur (adds + 1) dels
    else if startsWithChar '-' l && !isPre (chars "---") l then
      diffFold ls cur adds (dels + 1)
    else diffFold ls cur adds dels

/-- `compress_diff`: prefer stat lines, else per-file hunk summaries, else an
explicit no-changes marker. -/
def compress_diff (raw : Str) : Str :=
  let r := diffFold (rustLines raw) none 0 0
  chars "[diff]\n" ++
    (if ¬r.1.isEmpty then (r.1.map fun s => chars "  " ++ rustTrim s ++ chars "\n").flatten
     else if ¬r.2.isEmpty then (r.2.map fun f => f ++ chars "\n").flatten
     else chars "  (no changes)\n")

/-- Noise filter of the transfer group (`push`/`pull`/`fetch`/`clone`). -/
def transferNoise (l : Str) : Bool :=
  let t := rustTrim l
  t.isEmpty || isPre (chars "Enumerating") t || isPre (chars "Counting") t ||
    isPre (chars "Compressing") t || isPre (chars "Writing") t || isPre (chars "Total") t ||
    isPre (chars "Delta") t || isPre (chars "remote:") t || containsSub t (chars "100%")

/-- `compress_transfer`: drop noise lines and join the rest into one line. -/
def compress_transfer (sub raw : Str) : Str :=
  let meaningful := (rustLines raw).filter fun l => !transferNoise l
  if meaningful.isEmpty then chars "[git " ++ sub ++ chars "] ok"
  else chars "[git " ++ sub ++ chars "] " ++ joinSep (chars " | ") meaningful

/-- `compress_write_op`: echo a bracketed commit-style line, else the first
nonempty line, else `ok`. -/
def compress_write_op (sub raw : Str) : Str :=
  let hash := ((rustLines raw).find? fun l => l.contains '[' && l.contains ']').getD []
  if hash.isEmpty then
    if rustTrim raw = [] then chars "[git " ++ sub ++ chars "] ok"
    else
      let fm := ((rustLines raw).find? fun l => !(rustTrim l).isEmpty).getD (chars "ok")
      chars "[git " ++ sub ++ chars "] " ++ rustTrim fm
  else chars "[git " ++ sub ++ chars "] " ++ rustTrim hash

/-- `compress_branch`: branch count, current branch, then up to 30 others. -/
def compress_branch (raw : Str) : Str :=
  let branches := (rustLines raw).filter fun l => !(rustTrim l).isEmpty
  if branches.isEmpty then chars "[branches] none"
  else
    let current :=
      match branches.find? (startsWithChar '*') with
      | some l => rustTrim (trimStartRep (chars "* ") l)
      | none => chars "(none)"
    let others := (branches.filter fun l => !startsWithChar '*' l).map rustTrim
    chars "[branches: " ++ natStr branches.length ++ chars "] current: " ++ current ++
      chars "\n" ++ ((others.take 30).map fun b => chars "  " ++ b ++ chars "\n").flatten ++
      (if others.length > 30 then chars "  … +" ++ natStr (others.length - 30) ++ chars " more\n"
       else [])

/-- `compress_tag`: tag count, then up to 30 tags. -/
def compress_tag (raw : Str) : Str :=
  let tags := (rustLines raw).filter fun l => !(rustTrim l).isEmpty
  if tags.isEmpty then chars "[tags] none"
  else
    chars "[tags: " ++ natStr tags.length ++ chars "]\n" ++
      ((tags.take 30).map fun t => chars "  " ++ t ++ chars "\n").flatten ++
      (if tags.length > 30 then chars "  … +" ++ natStr (tags.length - 30) ++ chars " more\n"
       else [])

/-- `compress_stash`: list entries when `stash@{` lines exist, else echo the
first line. -/
def compress_stash (raw : Str) : Str :=
  if rustTrim raw = [] then chars "[stash] ok"
  else
    let lines := rustLines raw
    if lines.any fun l => isPre (chars "stash@\x7b") l then
      chars "[stash: " ++ natStr lines.length ++ chars " entries]\n" ++
        ((lines.take 20).map fun s => chars "  " ++ s ++ chars "\n").flatten ++
        (if lines.length > 20 then chars "  … +" ++ natStr (lines.length - 20) ++ chars " more\n"
         else [])
    else chars "[stash] " ++ rustTrim ((lines.head?).getD (chars "ok"))

/-- `compress_merge_like`: conflicts first, else a joined 5-line summary. -/
def compress_merge_like (sub raw : Str) : Str :=
  if rustTrim raw = [] then chars "[git " ++ sub ++ chars "] ok"
  else
    let conflicts := (rustLines raw).filter fun l =>
      containsSub l (chars "CONFLICT") || containsSub l (chars "conflict")
    if ¬conflicts.isEmpty then
      chars "[git " ++ sub ++ chars "] CONFLICTS (" ++ natStr conflicts.length ++ chars ")\n" ++
        (conflicts.map fun c => chars "  " ++ rustTrim c ++ chars "\n").flatten
    else
      let meaningful := (rustLines raw).filter fun l =>
        let t := rustTrim l
        !(t.isEmpty || isPre (chars "Auto-merging") t || isPre (chars "Applying:") t)
      if meaningful.isEmpty then chars "[git " ++ sub ++ chars "] ok"
      else chars "[git " ++ sub ++ chars "] " ++ joinSep (chars " | ") (meaningful.take 5)

/-- `compress_checkout`: echo the first nonempty line, or `ok`. -/
def compress_checkout (sub raw : Str) : Str :=
  if rustTrim raw = [] then chars "[git " ++ sub ++ chars "] ok"
  else
    let first := ((rustLines raw).find? fun l => !(rustTrim l).isEmpty).getD (chars "ok")
    chars "[git " ++ sub ++ chars "] " ++ rustTrim first

/-- `compress_remote`: count `(fetch)` lines, else fall back to `truncate`. -/
def compress_remote (raw : Str) : Option Str :=
  let remotes := (rustLines raw).filter fun l => containsSub l (chars "(fetch)")
  if remotes.isEmpty then
    if rustTrim raw = [] then some (chars "[remotes] none") else truncate raw
  else
    some (chars "[remotes: " ++ natStr remotes.length ++ chars "]\n" ++
      (remotes.map fun r => chars "  " ++ r ++ chars "\n").flatten)

/-- Per-line rendering of `compress_blame`, byte-slicing lines over 120 bytes. -/
def blameLines : List Str → Option Str
  | [] => some []
  | l :: ls =>
    match (if byteLen l > 120 then (takeBytes l 120).map (· ++ chars " …") else some l),
        blameLines ls with
    | some d, some rest => some (d ++ chars "\n" ++ rest)
    | _, _ => none

/-- `compress_blame`: line count header, first 80 lines (cut at 120 bytes),
overflow tail. -/
def compress_blame (raw : Str) : Option Str :=
  let lines := rustLines raw
  let total := lines.length
  if total = 0 then some (chars "[blame] empty")
  else
    (blameLines (lines.take 80)).map fun body =>
      chars "[blame: " ++ natStr total ++ chars " lines]\n" ++ body ++
        (if total > 80 then chars "  … +" ++ natStr (total - 80) ++ chars " more lines\n"
         else [])

/-- `compress_clean` (git): count `Removing`/`Would remove` lines. -/
def compress_clean (raw : Str) : Option Str :=
  let removed := (rustLines raw).filter fun l =>
    isPre (chars "Removing") l || isPre (chars "Would remove") l
  if removed.isEmpty then
    if rustTrim raw = [] then some (chars "[git clean] nothing to clean") else truncate raw
  else
    some (chars "[git clean] " ++ natStr removed.length ++ chars " items\n" ++
      ((removed.take 30).map fun r => chars "  " ++ r ++ chars "\n").flatten ++
      (if removed.length > 30 then chars "  … +" ++ natStr (removed.length - 30) ++ chars " more\n"
       else []))

/-- The recognized subcommands of `GitCompressor::compress`. -/
def gitSubs : List Str :=
  [chars "status", chars "diff", chars "log", chars "push", chars "pull", chars "fetch",
   chars "add", chars "commit", chars "reset", chars "restore", chars "rm", chars "mv",
   chars "branch", chars "tag", chars "stash", chars "merge", chars "rebase",
   chars "cherry-pick", chars "checkout", chars "switch", chars "remote", chars "blame",
   chars "show", chars "clean", chars "clone", chars "init"]

/-- `GitCompressor::compress`: dispatch on the subcommand hint, defaulting the
absent hint to the empty string and unrecognized hints to `truncate`. -/
def gitCompress (raw : Str) (sub : Option Str) : Option Str :=
  let s := sub.getD []
  if s = chars "status" then some (compress_status raw)
  else if s = chars "diff" then some (compress_diff raw)
  else if s = chars "log" then truncate raw
  else if s = chars "push" ∨ s = chars "pull" ∨ s = chars "fetch" then
    some (compress_transfer s raw)
  else if s = chars "add" ∨ s = chars "commit" ∨ s = chars "reset" ∨ s = chars "restore" ∨
      s = chars "rm" ∨ s = chars "mv" then some (compress_write_op s raw)
  else if s = chars "branch" then some (compress_branch raw)
  else if s = chars "tag" then some (compress_tag raw)
  else if s = chars "stash" then some (compress_stash raw)
  else if s = chars "merge" ∨ s = chars "rebase" ∨ s = chars "cherry-pick" then
    some (compress_merge_like s raw)
  else if s = chars "checkout" ∨ s = chars "switch" then some (compress_checkout s raw)
  else if s = chars "remote" then compress_remote raw
  else if s = chars "blame" then compress_blame raw
  else if s = chars "show" then truncate raw
  else if s = chars "clean" then compress_clean raw
  else if s = chars "clone" then some (compress_transfer (chars "clone") raw)
  else if s = chars "init" then some (compress_write_op (chars "init") raw)
  else truncate raw



/-! ## `src/compress/cargo.rs` -/

/-- The failure-block delimiter of `cargo test` output: `---- name ----`. -/
def cargoDelim (l : Str) : Bool :=
  isPre (chars "---- ") l && isSuf (chars " ----") l

/-- The summary-class lines kept by `compress_test`. -/
def cargoKeep (l : Str) : Bool :=
  isPre (chars "test result:") l || isPre (chars "failures:") l ||
    containsSub l (chars "FAILED") || isPre (chars "running ") l

/-- The scan of `compress_test`: a delimiter opens a failure block, closed by
the next blank line; inside a block every line is kept; summary-class lines
are kept once (deduplicated against lines already collected). -/
def cargoTestFold : List Str → Bool → List Str → List Str
  | [], _, out => out
  | l :: ls, inFailure, out =>
    let inf := if cargoDelim l then true else inFailure
    let out1 := if inf then out ++ [l] else out
    let inf1 := if inf ∧ l.isEmpty then false else inf
    let out2 := if cargoKeep l ∧ ¬out1.contains l then out1 ++ [l] else out1
    cargoTestFold ls inf1 out2

/-- `compress_test` (cargo): keep failures and summaries, else `truncate`. -/
def compress_test (raw : Str) : Option Str :=
  let out := cargoTestFold (rustLines raw) false []
  if out.isEmpty then truncate raw
  else some (chars "[cargo test]\n" ++ joinNL out)

/-- The classifying scan of `compress_build`: errors, then warnings (minus the
`unused` class), then summary lines, in an exclusive if/else chain. -/
def buildFold : List Str → List Str × List Str × List Str
  | [] => ([], [], [])
  | l :: ls =>
    let r := buildFold ls
    if isPre (chars "error") l then (l :: r.1, r.2.1, r.2.2)
    else if isPre (chars "warning") l ∧ ¬isPre (chars "warning: unused") l then
      (r.1, l :: r.2.1, r.2.2)
    else if containsSub l (chars "Finished") ∨ containsSub l (chars "could not compile") ∨
        (containsSub l (chars "Compiling") ∧ containsSub l (chars "v")) then
      (r.1, r.2.1, l :: r.2.2)
    else r

/-- `compress_build`: summary lines, all errors, first 10 warnings. -/
def compress_build (raw : Str) : Option Str :=
  let r := buildFold (rustLines raw)
  let errors := r.1
  let warnings := r.2.1
  let summary := r.2.2
  let out :=
    (summary.map fun s => rustTrim s ++ chars "\n").flatten ++
    (if ¬errors.isEmpty then
      chars "[errors: " ++ natStr errors.length ++ chars "]\n" ++
        (errors.map fun e => chars "  " ++ e ++ chars "\n").flatten
     else []) ++
    (if ¬warnings.isEmpty then
      chars "[warnings: " ++ natStr warnings.length ++ chars "]\n" ++
        ((warnings.take 10).map fun w => chars "  " ++ w ++ chars "\n").flatten ++
        (if warnings.length > 10 then
          chars "  … +" ++ natStr (warnings.length - 10) ++ chars " more\n"
         else [])
     else [])
  if out.isEmpty then truncate raw else some out

/-- `compress_clippy`: collect `warning:`/`error:` diagnostics, cap at 30. -/
def compress_clippy (raw : Str) : Option Str :=
  let lints := (rustLines raw).filter fun l =>
    isPre (chars "warning:") l || isPre (chars "error:") l
  if lints.isEmpty then truncate raw
  else
    some (chars "[clippy: " ++ natStr lints.length ++ chars " diagnostics]\n" ++
      ((lints.take 30).map fun lint => chars "  " ++ lint ++ chars "\n").flatten ++
      (if lints.length > 30 then chars "  … +" ++ natStr (lints.length - 30) ++ chars " more\n"
       else []))

/-- `compress_fmt`: clean marker on empty input, else reformat-needed files. -/
def compress_fmt (raw : Str) : Option Str :=
  if rustTrim raw = [] then some (chars "[cargo fmt] clean")
  else
    let diffs := (rustLines raw).filter fun l =>
      isPre (chars "Diff in") l || isPre (chars "Would reformat") l
    if ¬diffs.isEmpty then
      some (chars "[cargo fmt] " ++ natStr diffs.length ++ chars " files need formatting\n" ++
        ((diffs.take 20).map fun d => chars "  " ++ d ++ chars "\n").flatten)
    else truncate raw

/-- The build-phase noise dropped by `compress_run`. -/
def cargoRunNoise (l : Str) : Bool :=
  let t := rustTrim l
  isPre (chars "Compiling") t || isPre (chars "Downloading") t || isPre (chars "Fresh") t ||
    isPre (chars "Finished") t || isPre (chars "Running") t

/-- `compress_run` (cargo): keep program output, strip build noise. -/
def compress_run (raw : Str) : Option Str :=
  let out := (rustLines raw).filter fun l => !cargoRunNoise l
  if out.isEmpty then some (chars "[cargo run] ok")
  else truncate (joinNL out)

/-- `compress_bench`: benchmark-result lines plus the trailing result summary
(the `else if` guard keeps `bench:`-bearing lines out of the summary slot). -/
def compress_bench (raw : Str) : Option Str :=
  let results := (rustLines raw).filter fun l =>
    isPre (chars "test ") l && containsSub l (chars "bench:")
  let summary := ((rustLines raw).filter fun l =>
    isPre (chars "test result:") l && !containsSub l (chars "bench:")).getLast?
  if results.isEmpty then truncate raw
  else
    some (chars "[cargo bench] " ++ natStr results.length ++ chars " benchmarks\n" ++
      ((results.take 30).map fun r => chars "  " ++ r ++ chars "\n").flatten ++
      (if results.length > 30 then chars "  … +" ++ natStr (results.length - 30) ++ chars " more\n"
       else []) ++
      (match summary with
       | some s => s ++ chars "\n"
       | none => []))

/-- `compress_doc`: crate count, warning count, finished summary (the last
trimmed `Finished` line; guards mirror the exclusive if/else chain). -/
def compress_doc (raw : Str) : Option Str :=
  let trimmed := (rustLines raw).map rustTrim
  let documenting := trimmed.filter fun t => isPre (chars "Documenting") t
  let finished := (trimmed.filter fun t =>
    !isPre (chars "Documenting") t && isPre (chars "Finished") t).getLast?
  let warnings := (trimmed.filter fun t =>
    !isPre (chars "Documenting") t && !isPre (chars "Finished") t &&
      isPre (chars "warning:") t).length
  let out :=
    (if ¬documenting.isEmpty then
      chars "[cargo doc] " ++ natStr documenting.length ++ chars " crates\n" else []) ++
    (if warnings > 0 then chars "[warnings: " ++ natStr warnings ++ chars "]\n" else []) ++
    (match finished with
     | some f => f ++ chars "\n"
     | none => [])
  if out.isEmpty then truncate raw else some out

/-- `compress_dep_change`: drop download/update noise, list up to 10 lines. -/
def compress_dep_change (sub raw : Str) : Str :=
  let meaningful := (rustLines raw).filter fun l =>
    let t := rustTrim l
    !(t.isEmpty || isPre (chars "Updating") t || isPre (chars "Downloading") t ||
      isPre (chars "Downloaded") t)
  if meaningful.isEmpty then chars "[cargo " ++ sub ++ chars "] ok"
  else
    chars "[cargo " ++ sub ++ chars "]\n" ++
      ((meaningful.take 10).map fun l => chars "  " ++ rustTrim l ++ chars "\n").flatten

/-- `compress_update`: dependency-graph change lines, cap at 30. -/
def compress_update (raw : Str) : Option Str :=
  let updates := (rustLines raw).filter fun l =>
    let t := rustTrim l
    isPre (chars "Updating") t || isPre (chars "Adding") t || isPre (chars "Removing") t ||
      isPre (chars "Locking") t
  if updates.isEmpty then
    if rustTrim raw = [] then some (chars "[cargo update] already up to date")
    else truncate raw
  else
    some (chars "[cargo update] " ++ natStr updates.length ++ chars " changes\n" ++
      ((updates.take 30).map fun u => chars "  " ++ rustTrim u ++ chars "\n").flatten ++
      (if updates.length > 30 then chars "  … +" ++ natStr (updates.length - 30) ++ chars " more\n"
       else []))

/-- `compress_install` (cargo): last install-confirmation line plus the last
`Finished` line (guards mirror the exclusive if/else chain). -/
def compress_install (raw : Str) : Str :=
  let trimmed := (rustLines raw).map rustTrim
  let instCond := fun (t : Str) =>
    isPre (chars "Installing") t || isPre (chars "Installed") t || isPre (chars "Replacing") t
  let installed := (trimmed.filter instCond).getLast?
  let summary := (trimmed.filter fun t => !instCond t && isPre (chars "Finished") t).getLast?
  chars "[cargo install] " ++
    (match installed with
     | some i => i ++ chars "\n"
     | none => chars "ok\n") ++
    (match summary with
     | some s => s ++ chars "\n"
     | none => [])

/-- `compress_publish`: upload/publish confirmations and error/warning lines. -/
def compress_publish (raw : Str) : Option Str :=
  let meaningful := (rustLines raw).filter fun l =>
    let t := rustTrim l
    isPre (chars "Uploading") t || isPre (chars "Uploaded") t || isPre (chars "Publishing") t ||
      isPre (chars "Published") t || containsSub t (chars "error") ||
      containsSub t (chars "warning")
  if meaningful.isEmpty then truncate raw
  else
    some (chars "[cargo publish]\n" ++
      (meaningful.map fun l => chars "  " ++ rustTrim l ++ chars "\n").flatten)

/-- The recognized subcommands of `CargoCompressor::compress`. -/
def cargoSubs : List Str :=
  [chars "test", chars "nextest", chars "build", chars "check", chars "clippy", chars "fmt",
   chars "run", chars "bench", chars "doc", chars "add", chars "remove", chars "update",
   chars "install", chars "publish"]

/-- `CargoCompressor::compress`: dispatch on the subcommand hint. -/
def cargoCompress (raw : Str) (sub : Option Str) : Option Str :=
  let s := sub.getD []
  if s = chars "test" ∨ s = chars "nextest" then compress_test raw
  else if s = chars "build" ∨ s = chars "check" then compress_build raw
  else if s = chars "clippy" then compress_clippy raw
  else if s = chars "fmt" then compress_fmt raw
  else if s = chars "run" then compress_run raw
  else if s = chars "bench" then compress_bench raw
  else if s = chars "doc" then compress_doc raw
  else if s = chars "add" ∨ s = chars "remove" then some (compress_dep_change s raw)
  else if s = chars "update" then compress_update raw
  else if s = chars "install" then some (compress_install raw)
  else if s = chars "publish" then compress_publish raw
  else truncate raw

/-! ## `src/compress/docker.rs` -/

/-- `compress_ps`: container count, header row, up to 30 data rows. -/
def compress_ps (raw : Str) : Str :=
  let lines := rustLines raw
  if lines.isEmpty then chars "[docker ps] no containers"
  else
    chars "[containers: " ++ natStr (lines.length - 1) ++ chars "]\n" ++
      (match lines.head? with
       | some header => header ++ chars "\n"
       | none => []) ++
      (((lines.drop 1).take 30).map fun l => l ++ chars "\n").flatten ++
      (if lines.length > 31 then chars "  … +" ++ natStr (lines.length - 31) ++ chars " more\n"
       else [])

/-- `compress_images`: image count, header row, up to 30 data rows. -/
def compress_images (raw : Str) : Str :=
  let lines := rustLines raw
  if lines.isEmpty then chars "[docker images] none"
  else
    chars "[images: " ++ natStr (lines.length - 1) ++ chars "]\n" ++
      (match lines.head? with
       | some header => header ++ chars "\n"
       | none => []) ++
      (((lines.drop 1).take 30).map fun l => l ++ chars "\n").flatten ++
      (if lines.length > 31 then chars "  … +" ++ natStr (lines.length - 31) ++ chars " more\n"
       else [])

/-- The recognized subcommands of `DockerCompressor::compress`. -/
def dockerSubs : List Str := [chars "ps", chars "images", chars "logs"]

/-- `DockerCompressor::compress`: dispatch on the subcommand hint. -/
def dockerCompress (raw : Str) (sub : Option Str) : Option Str :=
  let s := sub.getD []
  if s = chars "ps" then some (compress_ps raw)
  else if s = chars "images" then some (compress_images raw)
  else if s = chars "logs" then dedup_lines raw
  else truncate raw

/-! ## `src/compress/python.rs` -/

/-- Pytest summary line: starts with `=` and mentions passed/failed/error. -/
def pySummary (l : Str) : Bool :=
  isPre (chars "=") l && (containsSub l (chars "passed") || containsSub l (chars "failed") ||
    containsSub l (chars "error"))

/-- The pytest `FAILURES` banner. -/
def pyFailuresHdr (l : Str) : Bool :=
  containsSub l (chars "FAILURES") && isPre (chars "=") l

/-- An individual pytest failure header: `___ name ___`. -/
def pyFailHdr (l : Str) : Bool :=
  isPre (chars "___") l && isSuf (chars "___") l

/-- A pytest short-summary line: `FAILED ` or `ERROR ` prefix. -/
def pyShortFail (l : Str) : Bool :=
  isPre (chars "FAILED ") l || isPre (chars "ERROR ") l

/-- The scan of `compress_pytest`: summary lines always kept; failure blocks
opened by the `FAILURES` banner or a `___` header, capped at 20 lines each and
closed by a `=` line or by a blank line after more than 2 lines of content. -/
def pytestFold : List Str → Bool → Nat → List Str
  | [], _, _ => []
  | l :: ls, inFailure, failLines =>
    if pySummary l then l :: pytestFold ls inFailure failLines
    else if pyFailuresHdr l then l :: pytestFold ls true failLines
    else if pyFailHdr l then l :: pytestFold ls true 0
    else if inFailure then
      let kept := if failLines + 1 ≤ 20 then [l] else []
      let inf := if isPre (chars "=") l ∨ (l.isEmpty ∧ failLines + 1 > 2) then false else true
      kept ++ pytestFold ls inf (failLines + 1)
    else if pyShortFail l then l :: pytestFold ls inFailure failLines
    else pytestFold ls inFailure failLines

/-- `compress_pytest`: keep failures and summaries, else `truncate`. -/
def compress_pytest (raw : Str) : Option Str :=
  let out := pytestFold (rustLines raw) false 0
  if out.isEmpty then truncate raw
  else some (chars "[pytest]\n" ++ joinNL out)

/-- Summary condition of `compress_ruff`. -/
def ruffSummaryCond (t : Str) : Bool :=
  isPre (chars "Found ") t || isPre (chars "All checks") t ||
    isPre (chars "Would reformat") t || isPre (chars "reformatted") t

/-- `compress_ruff`: last summary line or an issue count, then up to 30
diagnostics (lines naming a `.py`/`.pyi` location). -/
def compress_ruff (raw : Str) : Str :=
  if rustTrim raw = [] then chars "[ruff] clean"
  else
    let trimmed := (rustLines raw).map rustTrim
    let summary := (trimmed.filter ruffSummaryCond).getLast?
    let diagnostics := trimmed.filter fun t =>
      !ruffSummaryCond t && !t.isEmpty &&
        (containsSub t (chars ".py:") || containsSub t (chars ".pyi:"))
    (match summary with
     | some s => chars "[ruff] " ++ s ++ chars "\n"
     | none => chars "[ruff] " ++ natStr diagnostics.length ++ chars " issues\n") ++
    ((diagnostics.take 30).map fun d => chars "  " ++ d ++ chars "\n").flatten ++
    (if diagnostics.length > 30 then
      chars "  … +" ++ natStr (diagnostics.length - 30) ++ chars " more\n"
     else [])

/-- Summary condition of `compress_mypy`. -/
def mypySummaryCond (t : Str) : Bool :=
  isPre (chars "Found ") t || isPre (chars "Success") t

/-- `compress_mypy`: error/note lines with a summary, else `truncate`. -/
def compress_mypy (raw : Str) : Option Str :=
  let trimmed := (rustLines raw).map rustTrim
  let summary := (trimmed.filter mypySummaryCond).getLast?
  let errors := trimmed.filter fun t =>
    !mypySummaryCond t && (containsSub t (chars ": error:") || containsSub t (chars ": note:"))
  if errors.isEmpty then
    match summary with
    | some s => some (chars "[mypy] " ++ s)
    | none => truncate raw
  else
    some (chars "[mypy] " ++ natStr errors.length ++ chars " errors\n" ++
      ((errors.take 30).map fun e => chars "  " ++ e ++ chars "\n").flatten ++
      (if errors.length > 30 then chars "  … +" ++ natStr (errors.length - 30) ++ chars " more\n"
       else []) ++
      (match summary with
       | some s => s ++ chars "\n"
       | none => []))

/-- `compress_pip_install`: success summary, installed list, already-satisfied
count (guards mirror the exclusive if/else chain). -/
def compress_pip_install (raw : Str) : Option Str :=
  let trimmed := (rustLines raw).map rustTrim
  let c1 := fun (t : Str) => isPre (chars "Successfully installed") t
  let c2 := fun (t : Str) =>
    containsSub t (chars "already satisfied") || containsSub t (chars "Already installed")
  let c3 := fun (t : Str) => isPre (chars "Installing") t || isPre (chars "Installed") t
  let summaryLine := (trimmed.filter c1).getLast?
  let already := (trimmed.filter fun t => !c1 t && c2 t).length
  let installed := trimmed.filter fun t => !c1 t && !c2 t && c3 t
  let out :=
    (match summaryLine with
     | some s => chars "[pip] " ++ s ++ chars "\n"
     | none =>
       if ¬installed.isEmpty then
         chars "[pip] installed " ++ natStr installed.length ++ chars "\n" ++
           ((installed.take 20).map fun p => chars "  " ++ p ++ chars "\n").flatten
       else []) ++
    (if already > 0 then chars "[pip] " ++ natStr already ++ chars " already satisfied\n"
     else [])
  if out.isEmpty then truncate raw else some out

/-- The header filter shared by `compress_pip_list` and `compress_pip_outdated`. -/
def pipPackageLine (l : Str) : Bool :=
  !isPre (chars "Package") l && !isPre (chars "---") l && !(rustTrim l).isEmpty

/-- `compress_pip_list`: package count, up to 50 entries. -/
def compress_pip_list (raw : Str) : Str :=
  let lines := rustLines raw
  if lines.isEmpty then chars "[pip list] empty"
  else
    let packages := lines.filter pipPackageLine
    chars "[packages: " ++ natStr packages.length ++ chars "]\n" ++
      ((packages.take 50).map fun p => chars "  " ++ p ++ chars "\n").flatten ++
      (if packages.length > 50 then
        chars "  … +" ++ natStr (packages.length - 50) ++ chars " more\n"
       else [])

/-- `compress_pip_outdated`: outdated count, up to 30 entries. -/
def compress_pip_outdated (raw : Str) : Str :=
  let packages := (rustLines raw).filter pipPackageLine
  if packages.isEmpty then chars "[pip] all up to date"
  else
    chars "[outdated: " ++ natStr packages.length ++ chars "]\n" ++
      ((packages.take 30).map fun p => chars "  " ++ p ++ chars "\n").flatten ++
      (if packages.length > 30 then
        chars "  … +" ++ natStr (packages.length - 30) ++ chars " more\n"
       else [])

/-- The resolved/audited summary condition of the uv compressors. -/
def uvResolvedCond (t : Str) : Bool :=
  isPre (chars "Resolved") t || isPre (chars "Audited") t

/-- Added-dependency condition of `compress_uv_sync`. -/
def uvAddCond (t : Str) : Bool :=
  startsWithChar '+' t || isPre (chars "Installed") t

/-- Removed-dependency condition of `compress_uv_sync`. -/
def uvRemoveCond (t : Str) : Bool :=
  startsWithChar '-' t || isPre (chars "Uninstalled") t

/-- The counting scan of `compress_uv_sync`: the last resolved line plus
installed/uninstalled counters, in an exclusive if/else chain. -/
def uvSyncFold : List Str → Option Str × Nat × Nat
  | [] => (none, 0, 0)
  | l :: ls =>
    let r := uvSyncFold ls
    let t := rustTrim l
    if uvResolvedCond t then (some ((r.1).getD t), r.2.1, r.2.2)
    else if uvAddCond t then (r.1, r.2.1 + 1, r.2.2)
    else if uvRemoveCond t then (r.1, r.2.1, r.2.2 + 1)
    else r

/-- The summary head built by `compress_uv_sync`. -/
def uvSyncHead (raw : Str) : Str :=
  let r := uvSyncFold (rustLines raw)
  chars "[uv sync] " ++
    (match r.1 with
     | some res => res ++ chars " | "
     | none => []) ++
    chars "+" ++ natStr r.2.1 ++ chars " -" ++ natStr r.2.2 ++ chars "\n"

/-- `compress_uv_sync`: change-count summary, with the deduplicated raw output
appended when the input exceeds 10 lines. -/
def compress_uv_sync (raw : Str) : Option Str :=
  if (rustLines raw).length > 10 then (dedup_lines raw).map (uvSyncHead raw ++ ·)
  else some (uvSyncHead raw)

/-- `compress_uv_lock`: echo the resolved-count line, else `truncate`. -/
def compress_uv_lock (raw : Str) : Option Str :=
  match (rustLines raw).find? fun l => isPre (chars "Resolved") (rustTrim l) with
  | some r => some (chars "[uv lock] " ++ rustTrim r)
  | none => truncate raw

/-- `compress_uv_dep`: resolved-count prefix plus `+`/`-`/`Updated` change
lines under a labeled header. -/
def compress_uv_dep (sub raw : Str) : Option Str :=
  let trimmed := (rustLines raw).map rustTrim
  let resolved := (trimmed.filter uvResolvedCond).getLast?
  let changes := trimmed.filter fun t =>
    !uvResolvedCond t &&
      (startsWithChar '+' t || startsWithChar '-' t || isPre (chars "Updated") t)
  let out :=
    chars "[uv " ++ sub ++ chars "] " ++
      (match resolved with
       | some r => r ++ chars "\n"
       | none => chars "\n") ++
      ((changes.take 20).map fun c => chars "  " ++ c ++ chars "\n").flatten ++
      (if changes.length > 20 then chars "  … +" ++ natStr (changes.length - 20) ++ chars " more\n"
       else [])
  if rustTrim out = [] then truncate raw else some out

/-- The recognized subcommands of `PythonCompressor::compress`. -/
def pythonSubs : List Str :=
  [chars "pytest", chars "test", chars "ruff", chars "mypy", chars "pip", chars "install",
   chars "uninstall", chars "list", chars "freeze", chars "outdated", chars "sync",
   chars "run", chars "lock", chars "add", chars "remove"]

/-- `PythonCompressor::compress`: dispatch on the subcommand hint. -/
def pythonCompress (raw : Str) (sub : Option Str) : Option Str :=
  let s := sub.getD []
  if s = chars "pytest" ∨ s = chars "test" then compress_pytest raw
  else if s = chars "ruff" then some (compress_ruff raw)
  else if s = chars "mypy" then compress_mypy raw
  else if s = chars "pip" ∨ s = chars "install" ∨ s = chars "uninstall" then
    compress_pip_install raw
  else if s = chars "list" ∨ s = chars "freeze" then some (compress_pip_list raw)
  else if s = chars "outdated" then some (compress_pip_outdated raw)
  else if s = chars "sync" then compress_uv_sync raw
  else if s = chars "run" then truncate raw
  else if s = chars "lock" then compress_uv_lock raw
  else if s = chars "add" ∨ s = chars "remove" then compress_uv_dep s raw
  else truncate raw

/-! ## Specification-side definitions

Declarative counterparts, written from the spec's wording, against which the
imperative scans above are compared. -/

/-- Run-length encoding of a list: each maximal run of equal adjacent
elements becomes one `(element, length)` pair. -/
def specRuns {α : Type} [DecidableEq α] : List α → List (α × Nat)
  | [] => []
  | a :: t =>
    match specRuns t with
    | (b, k) :: r => if a = b then (b, k + 1) :: r else (a, 1) :: (b, k) :: r
    | [] => [(a, 1)]

/-- Spec-side dedup: every run collapses to one line, annotated `(×k)` when
`k > 1` and left unchanged when `k = 1`. -/
def specDedup (ls : List Str) : List Str :=
  (specRuns ls).map fun p => annotRun p.1 p.2

/-- Spec-side grep grouping: maximal runs of consecutive same-file matches,
in input order. -/
def specGroups : List (Str × Str) → List (Str × List Str)
  | [] => []
  | (f, r) :: rest =>
    match specGroups rest with
    | (f', rs) :: gs => if f = f' then (f', r :: rs) :: gs else (f, [r]) :: (f', rs) :: gs
    | [] => [(f, [r])]

/-- Append new groups onto an accumulator, merging its last group with the
first new group when their files coincide — the transition invariant of the
`compress_grep` loop. -/
def mergeAcc (acc gs : List (Str × List Str)) : List (Str × List Str) :=
  match gs with
  | [] => acc
  | (f', rs) :: gs' =>
    match acc.getLast? with
    | some (f, ms) => if f = f' then acc.dropLast ++ (f, ms ++ rs) :: gs' else acc ++ gs
    | none => acc ++ gs

/-- A `diff --git` file header. -/
def diffHdr (l : Str) : Bool := isPre (chars "diff --git") l

/-- Added lines of a hunk body: first character `+`, excluding the `+++`
file-identity line. -/
def countAdds (ls : List Str) : Nat :=
  (ls.filter fun l => startsWithChar '+' l && !isPre (chars "+++") l).length

/-- Removed lines of a hunk body: first character `-`, excluding the `---`
file-identity line. -/
def countDels (ls : List Str) : Nat :=
  (ls.filter fun l => startsWithChar '-' l && !isPre (chars "---") l).length

/-- Spec-side diff accounting: each file header opens a block whose body runs
to the next header; a block reports the file name and its add/remove counts. -/
def specDiffBlocks : List Str → List (Str × Nat × Nat)
  | [] => []
  | l :: ls =>
    let r := specDiffBlocks ls
    if diffHdr l then
      (diffFileName l, countAdds (ls.takeWhile fun x => !diffHdr x),
        countDels (ls.takeWhile fun x => !diffHdr x)) :: r
    else r

/-- Spec-side count of added-dependency lines in `uv sync` output. -/
def specSyncAdds (raw : Str) : Nat :=
  ((rustLines raw).map rustTrim).countP fun t => !uvResolvedCond t && uvAddCond t

/-- Spec-side count of removed-dependency lines in `uv sync` output. -/
def specSyncRemoves (raw : Str) : Nat :=
  ((rustLines raw).map rustTrim).countP fun t =>
    !uvResolvedCond t && !uvAddCond t && uvRemoveCond t

/-! ## Byte-length and slicing lemmas -/

theorem byteLen_nil : byteLen [] = 0 := rfl

theorem byteLen_cons (c : Char) (s : Str) : byteLen (c :: s) = c.utf8Size + byteLen s := by
  simp [byteLen]

theorem byteLen_append (a b : Str) : byteLen (a ++ b) = byteLen a + byteLen b := by
  simp [byteLen]

theorem length_le_byteLen (s : Str) : s.length ≤ byteLen s := by
  induction s with
  | nil => simp [byteLen]
  | cons c t ih =>
    rw [byteLen_cons]
    have h1 := Char.utf8Size_pos c
    simp only [List.length_cons]
    omega

theorem takeBytes_byteLen (s : Str) :
    ∀ n p, takeBytes s n = some p → byteLen p = n := by
  induction s with
  | nil =>
    intro n p h
    cases n with
    | zero =>
      simp only [takeBytes, Option.some_inj] at h
      subst h; rfl
    | succ m => simp [takeBytes] at h
  | cons c t ih =>
    intro n p h
    cases n with
    | zero =>
      simp only [takeBytes, Option.some_inj] at h
      subst h; rfl
    | succ m =>
      rw [takeBytes] at h
      split at h
      · rcases Option.map_eq_some'.mp h with ⟨q, hq, rfl⟩
        have hb := ih _ _ hq
        rw [byteLen_cons, hb]
        omega
      · exact absurd h (by simp)

theorem takeBytes_prefix_of (s : Str) :
    ∀ n p, takeBytes s n = some p → p <+: s := by
  induction s with
  | nil =>
    intro n p h
    cases n with
    | zero =>
      simp only [takeBytes, Option.some_inj] at h
      subst h; exact List.nil_prefix
    | succ m => simp [takeBytes] at h
  | cons c t ih =>
    intro n p h
    cases n with
    | zero =>
      simp only [takeBytes, Option.some_inj] at h
      subst h; exact List.nil_prefix
    | succ m =>
      rw [takeBytes] at h
      split at h
      · rcases Option.map_eq_some'.mp h with ⟨q, hq, rfl⟩
        exact List.cons_prefix_cons.mpr ⟨rfl, ih _ _ hq⟩
      · exact absurd h (by simp)

theorem capLine_of_le {m : Nat} {l : Str} (h : byteLen l ≤ m) : capLine m l = some l := by
  simp [capLine, Nat.not_lt.mpr h]

theorem capLine_length {m : Nat} {l o : Str} (h : capLine m l = some o) :
    o.length ≤ m + 2 := by
  rw [capLine] at h
  split at h
  · rcases Option.map_eq_some'.mp h with ⟨q, hq, rfl⟩
    have h1 := takeBytes_byteLen _ _ _ hq
    have h2 := length_le_byteLen q
    have h3 : (chars " …").length = 2 := rfl
    rw [List.length_append, h3]
    omega
  · rename_i hgt
    have hlo : l = o := by simpa using h
    subst hlo
    have h2 := length_le_byteLen l
    omega

theorem capLine_no_nl {m : Nat} {l o : Str} (hl : '\n' ∉ l)
    (h : capLine m l = some o) : '\n' ∉ o := by
  rw [capLine] at h
  split at h
  · rcases Option.map_eq_some'.mp h with ⟨q, hq, rfl⟩
    have hq' := (takeBytes_prefix_of _ _ _ hq).sublist.subset
    intro hmem
    rcases List.mem_append.mp hmem with h1 | h1
    · exact hl (hq' h1)
    · have : '\n' ∉ chars " …" := by decide
      exact this h1
  · have hlo : l = o := by simpa using h
    subst hlo
    exact hl

theorem capLines_of_le {m : Nat} {ls : List Str} (h : ∀ l ∈ ls, byteLen l ≤ m) :
    capLines m ls = some ls := by
  induction ls with
  | nil => rfl
  | cons l t ih =>
    rw [capLines, capLine_of_le (h l (by simp)), ih fun x hx => h x (by simp [hx])]

theorem capLines_length {m : Nat} {ls out : List Str} (h : capLines m ls = some out) :
    out.length = ls.length := by
  induction ls generalizing out with
  | nil =>
    simp only [capLines, Option.some_inj] at h
    subst h; rfl
  | cons l t ih =>
    rw [capLines] at h
    split at h
    · rename_i c cs hc hcs
      have : c :: cs = out := by simpa using h
      subst this
      simp [ih hcs]
    · exact absurd h (by simp)

theorem capLines_mem {m : Nat} {ls out : List Str} (h : capLines m ls = some out) :
    ∀ o ∈ out, ∃ l ∈ ls, capLine m l = some o := by
  induction ls generalizing out with
  | nil =>
    simp only [capLines, Option.some_inj] at h
    subst h; simp
  | cons l t ih =>
    rw [capLines] at h
    split at h
    · rename_i c cs hc hcs
      have : c :: cs = out := by simpa using h
      subst this
      intro o ho
      rcases List.mem_cons.mp ho with rfl | ho
      · exact ⟨l, by simp, hc⟩
      · rcases ih hcs o ho with ⟨x, hx, hcap⟩
        exact ⟨x, by simp [hx], hcap⟩
    · exact absurd h (by simp)

/-! ## Splitting and joining lemmas -/

theorem splitOnChar_ne_nil (sep : Char) (s : Str) : splitOnChar sep s ≠ [] := by
  cases s with
  | nil => simp [splitOnChar]
  | cons c t =>
    rw [splitOnChar]
    split
    · simp
    · split <;> simp

theorem not_mem_of_mem_splitOnChar (sep : Char) (s : Str) :
    ∀ p ∈ splitOnChar sep s, sep ∉ p := by
  induction s with
  | nil => intro p hp; simp [splitOnChar] at hp; simp [hp]
  | cons c t ih =>
    intro p hp
    rw [splitOnChar] at hp
    split at hp
    · rcases List.mem_cons.mp hp with rfl | hp
      · simp
      · exact ih p hp
    · rename_i hne
      rcases h' : splitOnChar sep t with _ | ⟨l, ls⟩
      · exact absurd h' (splitOnChar_ne_nil sep t)
      · rw [h'] at hp
        rcases List.mem_cons.mp hp with rfl | hp
        · intro hmem
          rcases List.mem_cons.mp hmem with rfl | hmem
          · simp at hne
          · exact ih l (by simp [h']) hmem
        · exact ih p (by simp [h', hp])

theorem joinNL_cons_of_ne_nil (x : Str) {rest : List Str} (h : rest ≠ []) :
    joinNL (x :: rest) = x ++ '\n' :: joinNL rest := by
  cases rest with
  | nil => exact absurd rfl h
  | cons y ys => rfl

theorem joinNL_splitNL (s : Str) : joinNL (splitNL s) = s := by
  induction s with
  | nil => rfl
  | cons c t ih =>
    rw [splitNL, splitOnChar]
    split
    · rename_i hc
      rw [joinNL_cons_of_ne_nil _ (splitOnChar_ne_nil '\n' t)]
      simp only [List.nil_append]
      rw [show splitOnChar '\n' t = splitNL t from rfl, ih]
      simp at hc
      rw [hc]
    · rename_i hc
      rcases h' : splitOnChar '\n' t with _ | ⟨l, ls⟩
      · exact absurd h' (splitOnChar_ne_nil '\n' t)
      · simp only [splitNL] at ih
        rw [h'] at ih
        cases ls with
        | nil =>
          simp only [joinNL] at ih ⊢
          rw [ih]
        | cons y ys =>
          rw [joinNL_cons_of_ne_nil _ (by simp)]
          rw [joinNL_cons_of_ne_nil _ (by simp)] at ih
          simp only [List.cons_append, List.append_assoc] at ih ⊢
          rw [ih]

theorem splitNL_append_cons (l : Str) (hl : '\n' ∉ l) (rest : Str) :
    splitNL (l ++ '\n' :: rest) = l :: splitNL rest := by
  induction l with
  | nil =>
    simp only [List.nil_append]
    rw [splitNL, splitOnChar]
    simp [splitNL]
  | cons c t ih =>
    have hc : c ≠ '\n' := fun h => hl (by simp [h])
    have ht : '\n' ∉ t := fun h => hl (by simp [h])
    rw [List.cons_append, splitNL, splitOnChar]
    rw [if_neg (by simpa using hc)]
    rw [show splitOnChar '\n' (t ++ '\n' :: rest) = splitNL (t ++ '\n' :: rest) from rfl]
    rw [ih ht]

theorem splitNL_of_no_nl (s : Str) (h : '\n' ∉ s) : splitNL s = [s] := by
  induction s with
  | nil => rfl
  | cons c t ih =>
    have hc : c ≠ '\n' := fun hc => h (by simp [hc])
    have ht : '\n' ∉ t := fun hm => h (by simp [hm])
    rw [splitNL, splitOnChar, if_neg (by simpa using hc)]
    rw [show splitOnChar '\n' t = splitNL t from rfl, ih ht]

theorem splitNL_joinNL (ls : List Str) (hne : ls ≠ []) (h : ∀ l ∈ ls, '\n' ∉ l) :
    splitNL (joinNL ls) = ls := by
  induction ls with
  | nil => exact absurd rfl hne
  | cons l rest ih =>
    cases rest with
    | nil => exact splitNL_of_no_nl l (h l (by simp))
    | cons y ys =>
      rw [joinNL_cons_of_ne_nil _ (by simp)]
      rw [splitNL_append_cons l (h l (by simp))]
      rw [ih (by simp) fun x hx => h x (by simp [hx])]

/-! ## `rustLines` lemmas -/

theorem stripCR_prefix_self (s : Str) : stripCR s <+: s := by
  rw [stripCR]
  split
  · exact List.dropLast_prefix s
  · exact List.prefix_refl s

theorem stripCR_length_le (s : Str) : (stripCR s).length ≤ s.length :=
  (stripCR_prefix_self s).length_le

theorem stripCR_no_nl {s : Str} (h : '\n' ∉ s) : '\n' ∉ stripCR s :=
  fun hm => h ((stripCR_prefix_self s).sublist.subset hm)

theorem rustLines_cons (c : Char) (t : Str) :
    rustLines (c :: t) =
      if (splitNL (c :: t)).getLast? = some [] then (splitNL (c :: t)).dropLast.map stripCR
      else (splitNL (c :: t)).dropLast.map stripCR ++ [((splitNL (c :: t)).getLast?).getD []] :=
  rfl

theorem rustLines_no_nl (s : Str) : ∀ p ∈ rustLines s, '\n' ∉ p := by
  intro p hp
  rcases s with _ | ⟨c, t⟩
  · simp [rustLines] at hp
  · rw [rustLines_cons] at hp
    have hparts := not_mem_of_mem_splitOnChar '\n' (c :: t)
    split at hp
    · rcases List.mem_map.mp hp with ⟨q, hq, rfl⟩
      exact stripCR_no_nl (hparts q (List.dropLast_subset _ hq))
    · rcases List.mem_append.mp hp with h1 | h1
      · rcases List.mem_map.mp h1 with ⟨q, hq, rfl⟩
        exact stripCR_no_nl (hparts q (List.dropLast_subset _ hq))
      · have h2 : p = ((splitNL (c :: t)).getLast?).getD [] := by simpa using h1
        subst h2
        rcases h' : (splitNL (c :: t)).getLast? with _ | q
        · simp
        · simp only [Option.getD_some]
          rcases List.mem_getLast?_eq_getLast (Option.mem_def.mpr h') with ⟨hne, rfl⟩
          exact hparts _ (List.getLast_mem hne)

theorem splitNL_terminated (ls : List Str) (h : ∀ l ∈ ls, '\n' ∉ l) :
    splitNL ((ls.map fun l => l ++ ['\n']).flatten) = ls ++ [[]] := by
  induction ls with
  | nil => rfl
  | cons l rest ih =>
    simp only [List.map_cons, List.flatten_cons, List.append_assoc, List.singleton_append]
    rw [splitNL_append_cons l (h l (by simp))]
    rw [ih fun x hx => h x (by simp [hx])]
    rfl

theorem rustLines_terminated (ls : List Str) (h : ∀ l ∈ ls, '\n' ∉ l) :
    rustLines ((ls.map fun l => l ++ ['\n']).flatten) = ls.map stripCR := by
  rcases ls with _ | ⟨l, rest⟩
  · rfl
  · have hsplit := splitNL_terminated (l :: rest) h
    rcases h' : ((l :: rest).map fun l => l ++ ['\n']).flatten with _ | ⟨c, t⟩
    · simp at h'
    · rw [h'] at hsplit
      rw [rustLines_cons, hsplit]
      rw [if_pos (by
        show ((l :: rest) ++ [([] : Str)]).getLast? = some []
        exact List.getLast?_concat _)]
      show (((l :: rest) ++ [([] : Str)]).dropLast).map stripCR = _
      rw [List.dropLast_concat]

theorem joinNL_eq_nil {ls : List Str} (hne : ls ≠ []) (h : joinNL ls = []) : ls = [[]] := by
  rcases ls with _ | ⟨l, rest⟩
  · exact absurd rfl hne
  · rcases rest with _ | ⟨y, ys⟩
    · simp only [joinNL] at h
      simp [h]
    · rw [joinNL_cons_of_ne_nil _ (by simp)] at h
      simp at h

theorem rustLines_joinNL (ls : List Str) (hne : ls ≠ []) (h : ∀ l ∈ ls, '\n' ∉ l) :
    rustLines (joinNL ls) =
      if ls.getLast? = some [] then ls.dropLast.map stripCR
      else ls.dropLast.map stripCR ++ [(ls.getLast?).getD []] := by
  rcases h' : joinNL ls with _ | ⟨c, t⟩
  · have hls := joinNL_eq_nil hne h'
    subst hls
    simp [rustLines]
  · rw [rustLines]
    have hsplit : splitNL (c :: t) = ls := by rw [← h']; exact splitNL_joinNL ls hne h
    rw [hsplit]

/-! ## Overflow-marker lemmas -/

theorem digitChar_ne_nl (d : Nat) : digitChar d ≠ '\n' := by
  rw [digitChar]
  split_ifs <;> decide

theorem natDigitsAux_no_nl (fuel : Nat) : ∀ n, '\n' ∉ natDigitsAux fuel n := by
  induction fuel with
  | zero => intro n; simp [natDigitsAux]
  | succ f ih =>
    intro n
    rw [natDigitsAux]
    split
    · simp [digitChar_ne_nl n |>.symm]
    · intro hmem
      rcases List.mem_append.mp hmem with h1 | h1
      · exact ih _ h1
      · have := digitChar_ne_nl (n % 10)
        simp at h1
        exact this h1.symm

theorem natStr_no_nl (n : Nat) : '\n' ∉ natStr n := natDigitsAux_no_nl (n + 1) n

theorem overflowMarker_eq (total maxLines : Nat) :
    overflowMarker total maxLines = '\n' :: markerBody total maxLines := by
  have h : chars "\n[cx] … " = '\n' :: chars "[cx] … " := rfl
  rw [overflowMarker, markerBody, h]
  simp

theorem markerBody_cons (total maxLines : Nat) :
    ∃ t, markerBody total maxLines = '[' :: t := by
  have h : chars "[cx] … " = '[' :: chars "cx] … " := rfl
  rw [markerBody, h]
  exact ⟨chars "cx] … " ++ natStr total ++ chars " lines total, showing first " ++
    natStr maxLines, by simp⟩

theorem markerBody_no_nl (total maxLines : Nat) : '\n' ∉ markerBody total maxLines := by
  rw [markerBody]
  intro hmem
  have h1 : '\n' ∉ chars "[cx] … " := by decide
  have h2 : '\n' ∉ chars " lines total, showing first " := by decide
  rcases List.mem_append.mp hmem with h | h
  · rcases List.mem_append.mp h with h | h
    · rcases List.mem_append.mp h with h | h
      · exact h1 h
      · exact natStr_no_nl total h
    · exact h2 h
  · exact natStr_no_nl maxLines h

theorem joinNL_marker (xs : List Str) (m : Str) :
    joinNL (xs ++ ['\n' :: m]) = joinNL (xs ++ [[], m]) := by
  induction xs with
  | nil => rfl
  | cons x xs ih =>
    rw [List.cons_append, List.cons_append]
    rw [joinNL_cons_of_ne_nil _ (by simp), joinNL_cons_of_ne_nil _ (by simp)]
    rw [ih]

/-! ## Truncation cap lemmas -/

theorem getLast_getD_mem {ls : List Str} (h : ls ≠ []) : (ls.getLast?).getD [] ∈ ls := by
  rw [List.getLast?_eq_getLast_of_ne_nil h]
  exact List.getLast_mem h

theorem rustLines_joinNL_bound {B : Nat} (ls : List Str) (h : ∀ l ∈ ls, '\n' ∉ l)
    (hb : ∀ l ∈ ls, l.length ≤ B) :
    (rustLines (joinNL ls)).length ≤ ls.length ∧
      ∀ l ∈ rustLines (joinNL ls), l.length ≤ B := by
  rcases hls : ls with _ | ⟨x, xs⟩
  · simp [joinNL, rustLines]
  · have hne : ls ≠ [] := by rw [hls]; simp
    rw [← hls]
    rw [rustLines_joinNL ls hne h]
    have hdrop : ∀ l ∈ ls.dropLast.map stripCR, l.length ≤ B := by
      intro l hl
      rcases List.mem_map.mp hl with ⟨q, hq, rfl⟩
      exact le_trans (stripCR_length_le q) (hb q (List.dropLast_subset _ hq))
    have hlast : ((ls.getLast?).getD []).length ≤ B := hb _ (getLast_getD_mem hne)
    have hdl : ls.dropLast.length + 1 = ls.length := by
      rw [List.length_dropLast]
      have : 0 < ls.length := List.length_pos.mpr hne
      omega
    split
    · constructor
      · simp only [List.length_map]
        omega
      · exact hdrop
    · constructor
      · simp only [List.length_append, List.length_map, List.length_singleton]
        omega
      · intro l hl
        rcases List.mem_append.mp hl with h1 | h1
        · exact hdrop l h1
        · have : l = (ls.getLast?).getD [] := by simpa using h1
          subst this
          exact hlast

theorem truncate_with_some {raw : Str} {maxLines maxLineLen : Nat} {out : Str}
    (h : truncate_with raw maxLines maxLineLen = some out) :
    ∃ capped, capLines maxLineLen ((rustLines raw).take maxLines) = some capped ∧
      out = joinNL (if (rustLines raw).length > maxLines
        then capped ++ [overflowMarker (rustLines raw).length maxLines] else capped) := by
  simp only [truncate_with] at h
  rcases Option.map_eq_some'.mp h with ⟨capped, hcap, hout⟩
  exact ⟨capped, hcap, hout.symm⟩

theorem truncate_with_line_facts {raw : Str} {maxLines maxLineLen : Nat} {capped : List Str}
    (hcap : capLines maxLineLen ((rustLines raw).take maxLines) = some capped) :
    capped.length ≤ maxLines ∧ (∀ o ∈ capped, o.length ≤ maxLineLen + 2) ∧
      ∀ o ∈ capped, '\n' ∉ o := by
  refine ⟨?_, ?_, ?_⟩
  · rw [capLines_length hcap, List.length_take]
    exact Nat.min_le_left _ _
  · intro o ho
    rcases capLines_mem hcap o ho with ⟨l, _, hcl⟩
    exact capLine_length hcl
  · intro o ho
    rcases capLines_mem hcap o ho with ⟨l, hl, hcl⟩
    exact capLine_no_nl (rustLines_no_nl raw l (List.take_subset _ _ hl)) hcl

/-- Claim C2 (amended): a successful `truncate_with` yields at most
`maxLines + 2` lines (content plus the blank separator and the overflow
marker), every line before the final one stays within `maxLineLen` plus the
two-character ellipsis marker, and below the line cap every line does. -/
theorem truncate_cap_bounds (raw : Str) (maxLines maxLineLen : Nat) (out : Str)
    (h : truncate_with raw maxLines maxLineLen = some out) :
    (rustLines out).length ≤ maxLines + 2 ∧
    (∀ l ∈ (rustLines out).dropLast, l.length ≤ maxLineLen + 2) ∧
    ((rustLines raw).length ≤ maxLines →
      ∀ l ∈ rustLines out, l.length ≤ maxLineLen + 2) := by
  rcases truncate_with_some h with ⟨capped, hcap, hout⟩
  rcases truncate_with_line_facts hcap with ⟨hlen, hbound, hnl⟩
  by_cases hov : (rustLines raw).length > maxLines
  · rw [if_pos hov] at hout
    rw [overflowMarker_eq, joinNL_marker] at hout
    set mb := markerBody (rustLines raw).length maxLines with hmb
    have hassoc : capped ++ [[], mb] = (capped ++ [([] : Str)]) ++ [mb] := by simp
    have hne : capped ++ [[], mb] ≠ [] := by simp
    have hnl' : ∀ l ∈ capped ++ [[], mb], '\n' ∉ l := by
      intro l hl
      rcases List.mem_append.mp hl with h1 | h1
      · exact hnl l h1
      · rcases List.mem_cons.mp h1 with rfl | h1
        · simp
        · have : l = mb := by simpa using h1
          subst this
          exact markerBody_no_nl _ _
    have hlast : (capped ++ [[], mb]).getLast? = some mb := by
      rw [hassoc]
      exact List.getLast?_concat _
    have hmbne : mb ≠ [] := by
      rcases markerBody_cons (rustLines raw).length maxLines with ⟨t, ht⟩
      rw [hmb, ht]
      simp
    rw [hout, rustLines_joinNL _ hne hnl']
    rw [if_neg (by rw [hlast]; simpa using hmbne), hlast]
    have hdl : (capped ++ [[], mb]).dropLast = capped ++ [[]] := by
      rw [hassoc]
      exact List.dropLast_concat
    rw [hdl]
    refine ⟨?_, ?_, ?_⟩
    · simp only [List.length_append, List.length_map, List.length_singleton]
      omega
    · rw [List.dropLast_concat]
      intro l hl
      rcases List.mem_map.mp hl with ⟨q, hq, rfl⟩
      rcases List.mem_append.mp hq with h1 | h1
      · exact le_trans (stripCR_length_le q) (hbound q h1)
      · have : q = [] := by simpa using h1
        subst this
        simp [stripCR]
    · intro hle
      omega
  · rw [if_neg hov] at hout
    rw [hout]
    rcases rustLines_joinNL_bound capped hnl hbound with ⟨h1, h2⟩
    refine ⟨by omega, fun l hl => h2 l (List.dropLast_subset _ hl), fun _ => h2⟩

/-! ## Newline-normal inputs round-trip through `rustLines` -/

theorem getLast?_cons_of_ne_nil {α : Type} (a : α) {l : List α} (h : l ≠ []) :
    (a :: l).getLast? = l.getLast? := by
  cases l with
  | nil => exact absurd rfl h
  | cons b t => rfl

theorem splitNL_getLast_ne_nil (s : Str) (hne : s ≠ []) (h : s.getLast? ≠ some '\n') :
    (splitNL s).getLast? ≠ some [] := by
  induction s with
  | nil => exact absurd rfl hne
  | cons c t ih =>
    rcases t with _ | ⟨d, t'⟩
    · have hc : c ≠ '\n' := fun hc => h (by simp [hc])
      rw [splitNL, splitOnChar, if_neg (by simpa using hc)]
      simp [splitNL, splitOnChar]
    · have hlast : (c :: d :: t').getLast? = (d :: t').getLast? := rfl
      rw [hlast] at h
      have ihr := ih (by simp) h
      rw [splitNL, splitOnChar]
      split
      · rw [getLast?_cons_of_ne_nil _ (splitOnChar_ne_nil '\n' (d :: t'))]
        exact ihr
      · rcases h' : splitOnChar '\n' (d :: t') with _ | ⟨l, ls⟩
        · exact absurd h' (splitOnChar_ne_nil '\n' _)
        · simp only [splitNL, h'] at ihr
          rcases ls with _ | ⟨y, ys⟩
          · simp
          · rw [getLast?_cons_of_ne_nil _ (by simp)]
            rw [getLast?_cons_of_ne_nil _ (by simp)] at ihr
            exact ihr

theorem containsSub_cons_false {c : Char} {t n : Str}
    (h : containsSub (c :: t) n = false) :
    isPre n (c :: t) = false ∧ containsSub t n = false := by
  rw [containsSub] at h
  exact ⟨by simpa using (Bool.or_eq_false_iff.mp h).1, (Bool.or_eq_false_iff.mp h).2⟩

theorem splitNL_head_nil {t : Str} {ls : List Str} (h : splitNL t = [] :: ls)
    (hls : ls ≠ []) : ∃ t', t = '\n' :: t' := by
  rcases t with _ | ⟨d, t'⟩
  · simp [splitNL, splitOnChar] at h
    exact absurd h hls
  · rw [splitNL, splitOnChar] at h
    split at h
    · rename_i hd
      exact ⟨t', by simp at hd; rw [hd]⟩
    · rcases h' : splitOnChar '\n' t' with _ | ⟨l', ls'⟩
      · exact absurd h' (splitOnChar_ne_nil '\n' _)
      · rw [h'] at h
        simp at h

theorem noCRLF_parts (s : Str) (h : containsSub s (chars "\r\n") = false) :
    ∀ p ∈ (splitNL s).dropLast, p.getLast? ≠ some '\r' := by
  induction s with
  | nil => intro p hp; simp [splitNL, splitOnChar] at hp
  | cons c t ih =>
    rcases containsSub_cons_false h with ⟨hpre, hrest⟩
    intro p hp
    rw [splitNL, splitOnChar] at hp
    split at hp
    · rw [List.dropLast_cons_of_ne_nil (splitOnChar_ne_nil '\n' t)] at hp
      rcases List.mem_cons.mp hp with rfl | hp
      · simp
      · exact ih hrest p hp
    · rename_i hcn
      rcases h' : splitOnChar '\n' t with _ | ⟨l, ls⟩
      · exact absurd h' (splitOnChar_ne_nil '\n' t)
      · rw [h'] at hp
        rcases ls with _ | ⟨y, ys⟩
        · simp at hp
        · rw [List.dropLast_cons_of_ne_nil (by simp)] at hp
          rcases List.mem_cons.mp hp with rfl | hp
          · rcases l with _ | ⟨x, xs⟩
            · rcases splitNL_head_nil (show splitNL t = [] :: y :: ys by
                simpa [splitNL] using h') (by simp) with ⟨t', rfl⟩
              intro hlast
              have hc : c = '\r' := by simpa using hlast
              subst hc
              simp [isPre, chars] at hpre
            · rw [getLast?_cons_of_ne_nil c (by simp)]
              have hl : (x :: xs) ∈ (splitNL t).dropLast := by
                simp only [splitNL, h']
                rw [List.dropLast_cons_of_ne_nil (by simp)]
                simp
              exact ih hrest _ hl
          · have hsub : p ∈ (splitNL t).dropLast := by
              simp only [splitNL, h']
              rw [List.dropLast_cons_of_ne_nil (by simp)]
              exact List.mem_cons_of_mem _ hp
            exact ih hrest p hsub

theorem map_stripCR_id {xs : List Str} (h : ∀ p ∈ xs, p.getLast? ≠ some '\r') :
    xs.map stripCR = xs := by
  induction xs with
  | nil => rfl
  | cons x t ih =>
    rw [List.map_cons, ih fun p hp => h p (by simp [hp])]
    rw [stripCR, if_neg (h x (by simp))]

theorem dropLast_append_getLastD {l : List Str} (h : l ≠ []) :
    l.dropLast ++ [(l.getLast?).getD []] = l := by
  rw [List.getLast?_eq_getLast_of_ne_nil h, Option.getD_some]
  exact List.dropLast_concat_getLast h

theorem rustLines_of_normal (s : Str) (hne : s ≠ []) (h1 : s.getLast? ≠ some '\n')
    (h2 : containsSub s (chars "\r\n") = false) :
    rustLines s = splitNL s := by
  rcases s with _ | ⟨c, t⟩
  · exact absurd rfl hne
  · rw [rustLines_cons]
    rw [if_neg (splitNL_getLast_ne_nil (c :: t) (by simp) h1)]
    rw [map_stripCR_id (noCRLF_parts (c :: t) h2)]
    exact dropLast_append_getLastD (splitOnChar_ne_nil '\n' (c :: t))

/-- Claim C3 (amended): below the caps, `truncate_with` is the identity on
newline-normal input — no trailing newline and no CR-LF line endings (Rust's
`lines()`/`join("\n")` pair normalizes those away, so exact identity fails on
them). -/
theorem truncate_id_below_cap (raw : Str) (maxLines maxLineLen : Nat)
    (h1 : raw.getLast? ≠ some '\n') (h2 : containsSub raw (chars "\r\n") = false)
    (h3 : (rustLines raw).length ≤ maxLines)
    (h4 : ∀ l ∈ rustLines raw, byteLen l ≤ maxLineLen) :
    truncate_with raw maxLines maxLineLen = some raw := by
  rcases hr : raw with _ | ⟨c, t⟩
  · simp [truncate_with, rustLines, capLines, joinNL]
  · have hne : raw ≠ [] := by rw [hr]; simp
    rw [← hr]
    simp only [truncate_with]
    rw [List.take_of_length_le h3, capLines_of_le h4]
    rw [Option.map_some']
    rw [if_neg (by omega)]
    rw [rustLines_of_normal raw hne h1 h2, joinNL_splitNL]

/-! ## Grep grouping: the loop builds exactly the runs of `specGroups` -/

theorem mergeAcc_nil_left (gs : List (Str × List Str)) : mergeAcc [] gs = gs := by
  cases gs with
  | nil => rfl
  | cons g gs' => obtain ⟨f', rs⟩ := g; simp [mergeAcc]

theorem mergeAcc_nil_right (acc : List (Str × List Str)) : mergeAcc acc [] = acc := rfl

theorem mergeAcc_concat_first (b : List (Str × List Str)) (f : Str) (ms : List Str)
    (gs : List (Str × List Str)) :
    mergeAcc (b ++ [(f, ms)]) gs =
      match gs with
      | [] => b ++ [(f, ms)]
      | (f', rs) :: gs' =>
        if f = f' then b ++ (f, ms ++ rs) :: gs' else (b ++ [(f, ms)]) ++ gs := by
  cases gs with
  | nil => rfl
  | cons g gs' =>
    obtain ⟨f', rs⟩ := g
    simp only [mergeAcc, List.getLast?_concat]
    split
    · rw [List.dropLast_concat]
    · rfl

theorem specGroups_cons_eq (f : Str) (r : Str) (fm : List (Str × Str)) :
    specGroups ((f, r) :: fm) =
      match specGroups fm with
      | (f', rs) :: gs => if f = f' then (f', r :: rs) :: gs else (f, [r]) :: (f', rs) :: gs
      | [] => [(f, [r])] := rfl

theorem mergeAcc_single (f : Str) (r : Str) (fm : List (Str × Str)) :
    mergeAcc [(f, [r])] (specGroups fm) = specGroups ((f, r) :: fm) := by
  rw [specGroups_cons_eq]
  rcases hg : specGroups fm with _ | ⟨⟨f', rs⟩, gs'⟩
  · rfl
  · have h0 := mergeAcc_concat_first [] f [r] ((f', rs) :: gs')
    simp only [List.nil_append] at h0
    rw [h0]
    try dsimp only
    split <;> rename_i hf
    · simp [hf]
    · simp [hf]

theorem mergeAcc_extend (b : List (Str × List Str)) (f : Str) (ms : List Str) (r : Str)
    (fm : List (Str × Str)) :
    mergeAcc (b ++ [(f, ms ++ [r])]) (specGroups fm) =
      mergeAcc (b ++ [(f, ms)]) (specGroups ((f, r) :: fm)) := by
  rw [specGroups_cons_eq]
  rcases hg : specGroups fm with _ | ⟨⟨f', rs⟩, gs'⟩
  · try dsimp only
    rw [mergeAcc_nil_right, mergeAcc_concat_first]
    try dsimp only
    try rw [if_pos rfl]
    try simp
  · try dsimp only
    rw [mergeAcc_concat_first]
    try dsimp only
    by_cases hf : f = f'
    · subst hf
      rw [if_pos rfl, mergeAcc_concat_first]
      try dsimp only
      try rw [if_pos rfl]
      try simp
    · rw [if_neg hf, if_neg hf, mergeAcc_concat_first]
      try dsimp only
      try rw [if_pos rfl]
      try simp

theorem mergeAcc_new_group (b : List (Str × List Str)) (f : Str) (ms : List Str)
    (g : Str) (r : Str) (fm : List (Str × Str)) (hfg : f ≠ g) :
    mergeAcc ((b ++ [(f, ms)]) ++ [(g, [r])]) (specGroups fm) =
      mergeAcc (b ++ [(f, ms)]) (specGroups ((g, r) :: fm)) := by
  rw [specGroups_cons_eq]
  rcases hg : specGroups fm with _ | ⟨⟨f', rs⟩, gs'⟩
  · simp [mergeAcc_nil_right, mergeAcc_concat_first, hfg]
  · by_cases hgf : g = f'
    · subst hgf
      simp only [if_pos rfl, mergeAcc_concat_first]
      simp [hfg]
    · simp only [if_neg hgf, mergeAcc_concat_first]
      simp [hfg, hgf]

theorem grepAccum_merge (ls : List Str) : ∀ acc,
    grepAccum ls acc = mergeAcc acc (specGroups (ls.filterMap splitColon)) := by
  induction ls with
  | nil => intro acc; simp [grepAccum, specGroups, mergeAcc_nil_right]
  | cons l t ih =>
    intro acc
    rw [grepAccum]
    rcases hsc : splitColon l with _ | ⟨file, rest⟩
    · rw [List.filterMap_cons_none hsc]
      exact ih acc
    · rw [List.filterMap_cons_some hsc]
      rcases hacc : acc.getLast? with _ | ⟨f, ms⟩
      · have ha : acc = [] := List.getLast?_eq_none_iff.mp hacc
        subst ha
        dsimp only
        rw [ih]
        rw [mergeAcc_nil_left]
        simpa using mergeAcc_single file rest (t.filterMap splitColon)
      · have ha : acc.dropLast ++ [(f, ms)] = acc := List.dropLast_append_getLast? _ hacc
        dsimp only
        by_cases hf : f = file
        · subst hf
          rw [if_pos rfl, ih]
          conv_rhs => rw [← ha]
          exact mergeAcc_extend acc.dropLast f ms rest (t.filterMap splitColon)
        · rw [if_neg hf, ih]
          conv_rhs => rw [← ha]
          conv_lhs => rw [← ha]
          exact mergeAcc_new_group acc.dropLast f ms file rest (t.filterMap splitColon) hf

/-- The `compress_grep` grouping loop computes exactly the run grouping of the
colon-bearing lines. -/
theorem grepAccum_eq_specGroups (ls : List Str) :
    grepAccum ls [] = specGroups (ls.filterMap splitColon) := by
  rw [grepAccum_merge, mergeAcc_nil_left]

/-- Claim C4 (amended): grep matches are grouped into maximal runs of
consecutive same-file matches (a file recurring non-adjacently opens a new
group), groups appear in input order, and the header counts every input line
as a match and every run as a file. -/
theorem grep_groups_runs (raw out : Str) (hnb : ¬rustTrim raw = [])
    (h : compress_grep raw = some out) :
    grepAccum (rustLines raw) [] = specGroups ((rustLines raw).filterMap splitColon) ∧
    (chars "[grep] " ++ natStr (rustLines raw).length ++ chars " matches in " ++
      natStr (specGroups ((rustLines raw).filterMap splitColon)).length ++
      chars " files\n") <+: out := by
  refine ⟨grepAccum_eq_specGroups _, ?_⟩
  rw [compress_grep, if_neg hnb] at h
  rcases Option.map_eq_some'.mp h with ⟨body, _, rfl⟩
  rw [← grepAccum_eq_specGroups]
  exact ⟨body, by simp⟩

/-! ## Fallback safety of the test compressors -/

theorem cargoTestFold_no_markers (ls : List Str)
    (h : ∀ l ∈ ls, cargoDelim l = false ∧ cargoKeep l = false) :
    ∀ out, cargoTestFold ls false out = out := by
  induction ls with
  | nil => intro out; rfl
  | cons l t ih =>
    intro out
    rw [cargoTestFold]
    rcases h l (by simp) with ⟨h1, h2⟩
    simp only [h1, h2, Bool.false_eq_true, if_false, false_and, and_false, if_neg,
      not_false_eq_true]
    exact ih (fun x hx => h x (by simp [hx])) out

theorem pytestFold_no_markers (ls : List Str)
    (h : ∀ l ∈ ls, pySummary l = false ∧ pyFailuresHdr l = false ∧
      pyFailHdr l = false ∧ pyShortFail l = false) :
    ∀ n, pytestFold ls false n = [] := by
  induction ls with
  | nil => intro n; rfl
  | cons l t ih =>
    intro n
    rw [pytestFold]
    rcases h l (by simp) with ⟨h1, h2, h3, h4⟩
    simp only [h1, h2, h3, h4, Bool.false_eq_true, if_false]
    exact ih (fun x hx => h x (by simp [hx])) n

/-- Claim C5 (amended): the compressors with an explicit fallback branch
(`cargo test`, `pytest`) return exactly the shared truncation when the input
contains none of their recognized markers; `git status` has no such branch
and emits its structured `[branch]`/`[clean]` summary instead. -/
theorem fallback_to_truncate (raw : Str)
    (hc : ∀ l ∈ rustLines raw, cargoDelim l = false ∧ cargoKeep l = false)
    (hp : ∀ l ∈ rustLines raw, pySummary l = false ∧ pyFailuresHdr l = false ∧
      pyFailHdr l = false ∧ pyShortFail l = false) :
    compress_test raw = truncate raw ∧ compress_pytest raw = truncate raw := by
  constructor
  · rw [compress_test, cargoTestFold_no_markers _ hc []]
    simp
  · rw [compress_pytest, pytestFold_no_markers _ hp 0]
    simp

/-! ## Dedup: the loop computes the run-length encoding -/

theorem specRuns_key {α : Type} [DecidableEq α] (a : α) (t : List α) :
    ∃ k gs, specRuns (a :: t) = (a, k) :: gs := by
  rw [specRuns]
  rcases specRuns t with _ | ⟨⟨b, k⟩, r⟩
  · exact ⟨1, [], rfl⟩
  · dsimp only
    by_cases hab : a = b
    · subst hab
      exact ⟨k + 1, r, by rw [if_pos rfl]⟩
    · exact ⟨1, (b, k) :: r, by rw [if_neg hab]⟩

theorem specRuns_replicate_append {α : Type} [DecidableEq α] (c : α) (rest : List α)
    (hrest : rest.head? ≠ some c) :
    ∀ count, 1 ≤ count →
      specRuns (List.replicate count c ++ rest) = (c, count) :: specRuns rest := by
  intro count
  induction count with
  | zero => omega
  | succ n ihn =>
    intro _
    rcases Nat.eq_zero_or_pos n with rfl | hn
    · simp only [List.replicate_succ, List.replicate_zero, List.nil_append, List.cons_append]
      rcases rest with _ | ⟨r, t⟩
      · rfl
      · have hr : r ≠ c := fun hrc => hrest (by simp [hrc])
        rcases specRuns_key r t with ⟨k, gs, hk⟩
        rw [specRuns, hk]
        dsimp only
        rw [if_neg (fun hcr => hr hcr.symm)]
    · have hstep := ihn hn
      rw [List.replicate_succ, List.cons_append, specRuns, hstep]
      dsimp only
      rw [if_pos rfl]

theorem dedupRuns_spec (ls : List Str) :
    ∀ cur count, 1 ≤ count →
      dedupRuns ls cur count =
        (specRuns (List.replicate count cur ++ ls)).map fun p => annotRun p.1 p.2 := by
  induction ls with
  | nil =>
    intro cur count hc
    rw [dedupRuns]
    have hs := specRuns_replicate_append cur [] (by simp) count hc
    rw [List.append_nil] at hs
    rw [List.append_nil, hs]
    rfl
  | cons l ls ih =>
    intro cur count hc
    rw [dedupRuns]
    by_cases hl : l = cur
    · subst hl
      rw [if_pos rfl, ih l (count + 1) (by omega)]
      rw [show List.replicate count l ++ l :: ls = List.replicate (count + 1) l ++ ls by
        rw [List.replicate_succ']
        simp]
    · rw [if_neg hl, ih l 1 (by omega)]
      rw [specRuns_replicate_append cur (l :: ls) (by simpa using hl) count hc]
      simp

/-- Claim C6 (amended): `dedup_lines` is the run-length collapse of the input
lines — one line per maximal run, annotated `(×k)` for `k > 1` and unchanged
for `k = 1`, non-adjacent repeats kept apart — followed by the shared
`truncate` pass (which can drop or shorten collapsed lines); empty input
yields the empty string. -/
theorem dedup_lines_eq_spec (raw : Str) :
    dedup_lines raw =
      if rustLines raw = [] then some []
      else truncate (joinNL (specDedup (rustLines raw))) := by
  simp only [dedup_lines]
  rcases h : rustLines raw with _ | ⟨l, ls⟩
  · rfl
  · rw [if_neg (by simp)]
    dsimp only
    rw [dedupRuns_spec ls l 1 (by omega)]
    simp [specDedup]

/-! ## Status output line structure -/

theorem rustTrim_subset (s : Str) : rustTrim s ⊆ s := by
  intro x hx
  rw [rustTrim] at hx
  have h1 := List.dropWhile_sublist (l := (s.dropWhile rustIsWs).reverse) (p := rustIsWs)
  have h2 := List.dropWhile_sublist (l := s) (p := rustIsWs)
  rw [List.mem_reverse] at hx
  have hx2 := h1.subset hx
  rw [List.mem_reverse] at hx2
  exact h2.subset hx2

theorem trimStartRepAux_subset (fuel : Nat) : ∀ p s, trimStartRepAux fuel p s ⊆ s := by
  induction fuel with
  | zero => intro p s; rw [trimStartRepAux]; exact fun x hx => hx
  | succ f ih =>
    intro p s
    rw [trimStartRepAux]
    split
    · exact fun x hx => List.drop_subset _ _ (ih p (s.drop p.length) hx)
    · exact fun x hx => hx

theorem trimStartRep_subset (p s : Str) : trimStartRep p s ⊆ s :=
  trimStartRepAux_subset s.length p s

theorem joinSep_no_nl {sep : Str} (hsep : '\n' ∉ sep) :
    ∀ ls : List Str, (∀ l ∈ ls, '\n' ∉ l) → '\n' ∉ joinSep sep ls := by
  intro ls
  induction ls with
  | nil => intro _; simp [joinSep]
  | cons l rest ih =>
    intro h
    cases rest with
    | nil => simpa [joinSep] using h l (by simp)
    | cons y ys =>
      rw [joinSep]
      intro hmem
      rcases List.mem_append.mp hmem with h1 | h1
      · rcases List.mem_append.mp h1 with h2 | h2
        · exact h l (by simp) h2
        · exact hsep h2
      · exact ih (fun x hx => h x (by simp [hx])) h1

theorem statusBranch_no_nl (raw : Str) : '\n' ∉ statusBranch raw := by
  rw [statusBranch]
  rcases hf : (rustLines raw).find? (fun l => isPre (chars "On branch") l) with _ | l
  · decide
  · intro hmem
    exact rustLines_no_nl raw l (List.mem_of_find?_eq_some hf)
      (trimStartRep_subset _ _ hmem)

theorem statusAhead_no_nl (raw : Str) : '\n' ∉ statusAhead raw := by
  rw [statusAhead]
  rcases hf : (rustLines raw).find? (fun l => isPre (chars "Your branch") l) with _ | l
  · simp
  · simpa using rustLines_no_nl raw l (List.mem_of_find?_eq_some hf)

theorem statusHeadLine_no_nl (raw : Str) : '\n' ∉ statusHeadLine raw := by
  rw [statusHeadLine]
  intro hmem
  rcases List.mem_append.mp hmem with h1 | h1
  · rcases List.mem_append.mp h1 with h2 | h2
    · have : '\n' ∉ chars "[branch] " := by decide
      exact this h2
    · exact statusBranch_no_nl raw h2
  · split at h1
    · rcases List.mem_append.mp h1 with h2 | h2
      · have : '\n' ∉ chars " | " := by decide
        exact this h2
      · exact statusAhead_no_nl raw (rustTrim_subset _ h2)
    · simp at h1

theorem statusFold_mem (ls : List Str) : ∀ sec x,
    (x ∈ (statusFold ls sec).1 ∨ x ∈ (statusFold ls sec).2.1 ∨
      x ∈ (statusFold ls sec).2.2) → ∃ l ∈ ls, x = rustTrim l := by
  induction ls with
  | nil => intro sec x hx; simp [statusFold] at hx
  | cons l t ih =>
    intro sec x hx
    have lift : (∃ l' ∈ t, x = rustTrim l') → ∃ l' ∈ l :: t, x = rustTrim l' := by
      rintro ⟨l', hl', rfl⟩
      exact ⟨l', by simp [hl'], rfl⟩
    rw [statusFold] at hx
    split at hx
    · exact lift (ih _ x hx)
    · split at hx
      · exact lift (ih _ x hx)
      · split at hx
        · exact lift (ih _ x hx)
        · split at hx
          · exact lift (ih _ x hx)
          · split at hx
            · cases sec with
              | staged =>
                dsimp only at hx
                rcases hx with h1 | h1 | h1
                · rcases List.mem_cons.mp h1 with rfl | h1
                  · exact ⟨l, by simp, rfl⟩
                  · exact lift (ih .staged x (Or.inl h1))
                · exact lift (ih .staged x (Or.inr (Or.inl h1)))
                · exact lift (ih .staged x (Or.inr (Or.inr h1)))
              | unstaged =>
                dsimp only at hx
                rcases hx with h1 | h1 | h1
                · exact lift (ih .unstaged x (Or.inl h1))
                · rcases List.mem_cons.mp h1 with rfl | h1
                  · exact ⟨l, by simp, rfl⟩
                  · exact lift (ih .unstaged x (Or.inr (Or.inl h1)))
                · exact lift (ih .unstaged x (Or.inr (Or.inr h1)))
              | untracked =>
                dsimp only at hx
                rcases hx with h1 | h1 | h1
                · exact lift (ih .untracked x (Or.inl h1))
                · exact lift (ih .untracked x (Or.inr (Or.inl h1)))
                · rcases List.mem_cons.mp h1 with rfl | h1
                  · exact ⟨l, by simp, rfl⟩
                  · exact lift (ih .untracked x (Or.inr (Or.inr h1)))
              | none => exact lift (ih .none x hx)
            · exact lift (ih _ x hx)

theorem secLineCore_no_nl {label : Str} (hlabel : '\n' ∉ label) {files : List Str}
    (hfiles : ∀ f ∈ files, '\n' ∉ f) : '\n' ∉ secLineCore label files := by
  rw [secLineCore]
  intro hmem
  rcases List.mem_append.mp hmem with h1 | h1
  · rcases List.mem_append.mp h1 with h2 | h2
    · rcases List.mem_append.mp h2 with h3 | h3
      · rcases List.mem_append.mp h3 with h4 | h4
        · rcases List.mem_append.mp h4 with h5 | h5
          · have : '\n' ∉ chars "[" := by decide
            exact this h5
          · exact hlabel h5
        · have : '\n' ∉ chars " " := by decide
          exact this h4
      · exact natStr_no_nl files.length h3
    · have : '\n' ∉ chars "] " := by decide
      exact this h2
  · exact joinSep_no_nl (by decide) files hfiles h1

theorem statusLogical_no_nl (raw : Str) : ∀ p ∈ statusLogical raw, '\n' ∉ p := by
  intro p hp
  have hsecs := statusFold_mem (rustLines raw)
  have hfile : ∀ x, (∃ l ∈ rustLines raw, x = rustTrim l) → '\n' ∉ x := by
    rintro x ⟨l, hl, rfl⟩
    exact fun hm => rustLines_no_nl raw l hl (rustTrim_subset l hm)
  rw [statusLogical] at hp
  simp only [List.mem_append] at hp
  rcases hp with ((((h1 | h1) | h1) | h1) | h1)
  · have : p = statusHeadLine raw := by simpa using h1
    subst this
    exact statusHeadLine_no_nl raw
  · split at h1
    · simp at h1
    · have : p = secLineCore (chars "staged") (statusFold (rustLines raw) .none).1 := by
        simpa using h1
      subst this
      exact secLineCore_no_nl (by decide)
        (fun f hf => hfile f (hsecs .none f (Or.inl hf)))
  · split at h1
    · simp at h1
    · have : p = secLineCore (chars "modified") (statusFold (rustLines raw) .none).2.1 := by
        simpa using h1
      subst this
      exact secLineCore_no_nl (by decide)
        (fun f hf => hfile f (hsecs .none f (Or.inr (Or.inl hf))))
  · split at h1
    · simp at h1
    · have : p = secLineCore (chars "untracked") (statusFold (rustLines raw) .none).2.2 := by
        simpa using h1
      subst this
      exact secLineCore_no_nl (by decide)
        (fun f hf => hfile f (hsecs .none f (Or.inr (Or.inr hf))))
  · split at h1
    · have : p = chars "[clean]" := by simpa using h1
      subst this
      decide
    · simp at h1

theorem compress_status_flatten (raw : Str) :
    compress_status raw = ((statusLogical raw).map fun l => l ++ ['\n']).flatten := by
  rw [compress_status, statusLogical]
  have hnl : chars "\n" = ['\n'] := rfl
  simp only [statusSectionLine, List.map_append, List.flatten_append, List.map_cons,
    List.map_nil, List.flatten_cons, List.flatten_nil]
  have hclean : chars "[clean]\n" = chars "[clean]" ++ ['\n'] := rfl
  split_ifs <;> simp [hnl, hclean]

theorem rustLines_compress_status (raw : Str) :
    rustLines (compress_status raw) = (statusLogical raw).map stripCR := by
  rw [compress_status_flatten]
  exact rustLines_terminated _ (statusLogical_no_nl raw)

theorem stripCR_ne_bracket {x : Str} {c : Char} {t u : Str} {d : Char}
    (hx : x = '[' :: c :: t) (hu : chars "[clean]" = '[' :: d :: u) (hc : c ≠ d) :
    stripCR x ≠ chars "[clean]" := by
  intro h
  have hpre : chars "[clean]" <+: x := h ▸ stripCR_prefix_self x
  rw [hx, hu] at hpre
  rcases List.cons_prefix_cons.mp hpre with ⟨_, hpre1⟩
  rcases List.cons_prefix_cons.mp hpre1 with ⟨hdc, _⟩
  exact hc hdc.symm

theorem statusHeadLine_shape (raw : Str) :
    ∃ t, statusHeadLine raw = '[' :: 'b' :: t := by
  rw [statusHeadLine]
  have h : chars "[branch] " = '[' :: 'b' :: chars "ranch] " := rfl
  rw [h]
  exact ⟨(chars "ranch] " ++ statusBranch raw) ++
    (if ¬(statusAhead raw).isEmpty ∧ containsSub (statusAhead raw) (chars "up to date") = false
     then chars " | " ++ rustTrim (statusAhead raw) else []),
    by simp only [List.cons_append]⟩

theorem secLineCore_shape (c : Char) (cs : Str) (files : List Str) :
    ∃ t, secLineCore (c :: cs) files = '[' :: c :: t := by
  rw [secLineCore]
  have h : chars "[" = ['['] := rfl
  rw [h]
  exact ⟨((cs ++ chars " ") ++ natStr files.length) ++ chars "] " ++ joinSep (chars ", ") files,
    by simp only [List.singleton_append, List.cons_append, List.append_assoc, List.nil_append]⟩

theorem clean_marker_iff (raw : Str) :
    (chars "[clean]") ∈ rustLines (compress_status raw) ↔
      statusFold (rustLines raw) .none = ([], [], []) := by
  have hu : chars "[clean]" = '[' :: 'c' :: chars "lean]" := rfl
  rw [rustLines_compress_status]
  constructor
  · intro hmem
    rcases List.mem_map.mp hmem with ⟨y, hy, hstrip⟩
    rw [statusLogical] at hy
    simp only [List.mem_append] at hy
    rcases hy with ((((h1 | h1) | h1) | h1) | h1)
    · exfalso
      have hey : y = statusHeadLine raw := by simpa using h1
      subst hey
      rcases statusHeadLine_shape raw with ⟨t, ht⟩
      exact stripCR_ne_bracket ht hu (by decide) hstrip
    · exfalso
      split at h1
      · simp at h1
      · have hey : y = secLineCore (chars "staged") (statusFold (rustLines raw) .none).1 := by
          simpa using h1
        subst hey
        rcases secLineCore_shape 's' (chars "taged") _ with ⟨t, ht⟩
        exact stripCR_ne_bracket ht hu (by decide) hstrip
    · exfalso
      split at h1
      · simp at h1
      · have hey : y = secLineCore (chars "modified") (statusFold (rustLines raw) .none).2.1 := by
          simpa using h1
        subst hey
        rcases secLineCore_shape 'm' (chars "odified") _ with ⟨t, ht⟩
        exact stripCR_ne_bracket ht hu (by decide) hstrip
    · exfalso
      split at h1
      · simp at h1
      · have hey : y = secLineCore (chars "untracked") (statusFold (rustLines raw) .none).2.2 := by
          simpa using h1
        subst hey
        rcases secLineCore_shape 'u' (chars "ntracked") _ with ⟨t, ht⟩
        exact stripCR_ne_bracket ht hu (by decide) hstrip
    · split at h1
      · rename_i hcond
        rcases hcond with ⟨he1, he2, he3⟩
        have e1 := List.isEmpty_iff.mp he1
        have e2 := List.isEmpty_iff.mp he2
        have e3 := List.isEmpty_iff.mp he3
        simp [Prod.ext_iff, e1, e2, e3]
      · simp at h1
  · intro hsecs
    refine List.mem_map.mpr ⟨chars "[clean]", ?_, by decide⟩
    rw [statusLogical]
    simp [hsecs]

/-- Claim C7: the clean-status scenario produces `[branch] main` and `[clean]`
with no ahead/behind note; in general the note is absent whenever the
tracking line is missing or says "up to date", and the `[clean]` line is
emitted exactly when all three sections are empty. -/
theorem status_clean_scenario (raw : Str)
    (h : statusAhead raw = [] ∨ containsSub (statusAhead raw) (chars "up to date") = true) :
    compress_status (chars "On branch main\nnothing to commit, working tree clean\n") =
      chars "[branch] main\n[clean]\n" ∧
    (∃ rest, compress_status raw =
      chars "[branch] " ++ statusBranch raw ++ chars "\n" ++ rest) ∧
    ((chars "[clean]") ∈ rustLines (compress_status raw) ↔
      statusFold (rustLines raw) .none = ([], [], [])) := by
  refine ⟨by decide, ?_, clean_marker_iff raw⟩
  have hcond : ¬(¬(statusAhead raw).isEmpty ∧
      containsSub (statusAhead raw) (chars "up to date") = false) := by
    rcases h with h | h
    · rintro ⟨h1, _⟩
      exact h1 (by simp [h])
    · rintro ⟨_, h2⟩
      rw [h] at h2
      simp at h2
  rw [compress_status, statusHeadLine, if_neg hcond]
  exact ⟨statusSectionLine (chars "staged") (statusFold (rustLines raw) .none).1 ++
    statusSectionLine (chars "modified") (statusFold (rustLines raw) .none).2.1 ++
    statusSectionLine (chars "untracked") (statusFold (rustLines raw) .none).2.2 ++
    (if (statusFold (rustLines raw) .none).1.isEmpty ∧
        (statusFold (rustLines raw) .none).2.1.isEmpty ∧
        (statusFold (rustLines raw) .none).2.2.isEmpty
     then chars "[clean]\n" else []), by simp⟩

/-! ## Diff accounting: the scan equals per-block counting -/

theorem startsWithChar_excl {c d : Char} {l : Str} (h : startsWithChar c l = true)
    (hcd : c ≠ d) : startsWithChar d l = false := by
  cases l with
  | nil => simp [startsWithChar] at h
  | cons a t =>
    simp only [startsWithChar] at h ⊢
    have : a = c := by simpa using h
    subst this
    simpa using hcd

theorem countAdds_cons_pos {l : Str} {ls : List Str}
    (h : (startsWithChar '+' l && !isPre (chars "+++") l) = true) :
    countAdds (l :: ls) = countAdds ls + 1 := by
  simp [countAdds, List.filter_cons, h]

theorem countAdds_cons_neg {l : Str} {ls : List Str}
    (h : (startsWithChar '+' l && !isPre (chars "+++") l) = false) :
    countAdds (l :: ls) = countAdds ls := by
  simp [countAdds, List.filter_cons, h]

theorem countDels_cons_pos {l : Str} {ls : List Str}
    (h : (startsWithChar '-' l && !isPre (chars "---") l) = true) :
    countDels (l :: ls) = countDels ls + 1 := by
  simp [countDels, List.filter_cons, h]

theorem countDels_cons_neg {l : Str} {ls : List Str}
    (h : (startsWithChar '-' l && !isPre (chars "---") l) = false) :
    countDels (l :: ls) = countDels ls := by
  simp [countDels, List.filter_cons, h]

theorem diffFold_stat_free (ls : List Str) (h : ∀ l ∈ ls, statLike l = false) :
    ∀ cur a d, (diffFold ls cur a d).1 = [] := by
  induction ls with
  | nil => intro cur a d; rfl
  | cons l t ih =>
    intro cur a d
    rw [diffFold]
    rw [if_neg (by simp [h l (by simp)])]
    have ht : ∀ x ∈ t, statLike x = false := fun x hx => h x (by simp [hx])
    split
    · exact ih ht _ _ _
    · split
      · exact ih ht _ _ _
      · split
        · exact ih ht _ _ _
        · exact ih ht _ _ _

theorem diffFold_blocks (ls : List Str) (h : ∀ l ∈ ls, statLike l = false) :
    ∀ cur a d, (diffFold ls cur a d).2 =
      diffFlush cur (a + countAdds (ls.takeWhile fun x => !diffHdr x))
          (d + countDels (ls.takeWhile fun x => !diffHdr x)) ++
        (specDiffBlocks ls).map fun e => diffEntry e.1 e.2.1 e.2.2 := by
  induction ls with
  | nil =>
    intro cur a d
    simp [diffFold, specDiffBlocks, countAdds, countDels]
  | cons l t ih =>
    intro cur a d
    have ht : ∀ x ∈ t, statLike x = false := fun x hx => h x (by simp [hx])
    rw [diffFold]
    rw [if_neg (by simp [h l (by simp)])]
    by_cases hhdr : isPre (chars "diff --git") l
    · rw [if_pos hhdr]
      have hdh : diffHdr l = true := by simpa [diffHdr] using hhdr
      rw [show (specDiffBlocks (l :: t)) =
          (diffFileName l, countAdds (t.takeWhile fun x => !diffHdr x),
            countDels (t.takeWhile fun x => !diffHdr x)) :: specDiffBlocks t by
        rw [specDiffBlocks]
        rw [if_pos hdh]]
      rw [show (l :: t).takeWhile (fun x => !diffHdr x) = [] by
        rw [List.takeWhile_cons_of_neg]
        simp [hdh]]
      dsimp only
      rw [ih ht (some (diffFileName l)) 0 0]
      simp [countAdds, countDels, diffFlush]
    · rw [if_neg hhdr]
      have hdh : diffHdr l = false := by simpa [diffHdr] using hhdr
      have htw : (l :: t).takeWhile (fun x => !diffHdr x) =
          l :: t.takeWhile fun x => !diffHdr x := by
        rw [List.takeWhile_cons_of_pos]
        simp [hdh]
      have hblocks : specDiffBlocks (l :: t) = specDiffBlocks t := by
        rw [specDiffBlocks]
        rw [if_neg (by simp [hdh])]
      by_cases hplus : (startsWithChar '+' l && !isPre (chars "+++") l) = true
      · rw [if_pos hplus, ih ht cur (a + 1) d, htw, hblocks]
        rw [countAdds_cons_pos hplus]
        rw [countDels_cons_neg (by
          simp only [Bool.and_eq_true] at hplus
          simp [startsWithChar_excl (d := '-') hplus.1 (by decide)])]
        congr 2
        omega
      · rw [if_neg (by simpa using hplus)]
        by_cases hminus : (startsWithChar '-' l && !isPre (chars "---") l) = true
        · rw [if_pos hminus, ih ht cur a (d + 1), htw, hblocks]
          rw [countDels_cons_pos hminus]
          rw [countAdds_cons_neg (by
            simp only [Bool.and_eq_true] at hminus
            simp [startsWithChar_excl (d := '+') hminus.1 (by decide)])]
          congr 2
          omega
        · rw [if_neg (by simpa using hminus)]
          rw [ih ht cur a d, htw, hblocks]
          rw [countAdds_cons_neg (by simpa using hplus)]
          rw [countDels_cons_neg (by simpa using hminus)]

/-- Claim C8: a hunk-style diff with no stat lines is summarized per file as
`  file: +A -D`, adds/removes counted by first-character marker with the
`+++`/`---` identity lines ignored, flushing at each new header and at the
end; the scenario diff (two adds, one remove in one file) yields `src/main.rs: +2 -1`. -/
theorem diff_hunk_accounting (raw : Str) (h : ∀ l ∈ rustLines raw, statLike l = false) :
    compress_diff (chars "diff --git a/src/main.rs b/src/main.rs\n--- a/src/main.rs\n+++ b/src/main.rs\n@@ -1,3 +1,4 @@\n+use std::io;\n fn main() \x7b\n-    println!(\"old\");\n+    println!(\"new\");\n \x7d\n") =
      chars "[diff]\n  src/main.rs: +2 -1\n" ∧
    compress_diff raw = chars "[diff]\n" ++
      (if specDiffBlocks (rustLines raw) = [] then chars "  (no changes)\n"
       else ((specDiffBlocks (rustLines raw)).map fun e =>
         diffEntry e.1 e.2.1 e.2.2 ++ chars "\n").flatten) := by
  constructor
  · decide
  · have h1 := diffFold_stat_free (rustLines raw) h none 0 0
    have h2 := diffFold_blocks (rustLines raw) h none 0 0
    have h3 : (diffFold (rustLines raw) none 0 0).2 =
        (specDiffBlocks (rustLines raw)).map fun e => diffEntry e.1 e.2.1 e.2.2 := by
      rw [h2]
      rfl
    simp only [compress_diff, h1, h3]
    rcases hb : specDiffBlocks (rustLines raw) with _ | ⟨e, es⟩
    · simp
    · simp [List.map_map]
      rfl

/-! ## uv sync counting -/

theorem getLast?_cons_getD {α : Type} (a : α) (l : List α) :
    (a :: l).getLast? = some ((l.getLast?).getD a) := by
  cases l with
  | nil => rfl
  | cons b t =>
    rw [getLast?_cons_of_ne_nil a (by simp)]
    rw [List.getLast?_eq_getLast_of_ne_nil (l := b :: t) (by simp)]
    simp

theorem uvSyncFold_counts (ls : List Str) :
    (uvSyncFold ls).2.1 =
        (ls.map rustTrim).countP (fun t => !uvResolvedCond t && uvAddCond t) ∧
      (uvSyncFold ls).2.2 =
        (ls.map rustTrim).countP
          (fun t => !uvResolvedCond t && !uvAddCond t && uvRemoveCond t) ∧
      (uvSyncFold ls).1 = ((ls.map rustTrim).filter uvResolvedCond).getLast? := by
  induction ls with
  | nil => refine ⟨rfl, rfl, rfl⟩
  | cons l t ih =>
    obtain ⟨ih1, ih2, ih3⟩ := ih
    simp only [uvSyncFold, List.map_cons, List.countP_cons, List.filter_cons]
    by_cases hres : uvResolvedCond (rustTrim l) = true
    · rw [if_pos hres]
      simp only [hres, Bool.not_true, Bool.false_and, if_false, if_pos rfl]
      refine ⟨by simpa using ih1, by simpa using ih2, ?_⟩
      rw [if_pos trivial, getLast?_cons_getD, ih3]
    · rw [if_neg hres]
      have hres' : uvResolvedCond (rustTrim l) = false := by simpa using hres
      by_cases hadd : uvAddCond (rustTrim l) = true
      · rw [if_pos hadd]
        simp only [hres', hadd, Bool.not_false, Bool.true_and, Bool.and_false,
          Bool.and_true, if_true, Bool.false_eq_true, if_false]
        exact ⟨by rw [ih1], by simpa using ih2, by simpa using ih3⟩
      · rw [if_neg hadd]
        have hadd' : uvAddCond (rustTrim l) = false := by simpa using hadd
        by_cases hrem : uvRemoveCond (rustTrim l) = true
        · rw [if_pos hrem]
          simp only [hres', hadd', hrem, Bool.not_false, Bool.true_and, Bool.and_false,
            Bool.and_true, if_true, Bool.false_eq_true, if_false]
          exact ⟨by simpa using ih1, by rw [ih2], by simpa using ih3⟩
        · rw [if_neg hrem]
          have hrem' : uvRemoveCond (rustTrim l) = false := by simpa using hrem
          simp only [hres', hadd', hrem', Bool.not_false, Bool.true_and, Bool.and_false,
            Bool.false_and, Bool.and_true, Bool.false_eq_true, if_false]
          exact ⟨by simpa using ih1, by simpa using ih2, by simpa using ih3⟩

/-- Claim C9: the dependency-sync scenario summary carries the resolved-count
line and `+2 -1`; the loop's counters equal the declarative counts of
added/removed dependency lines, and the deduplicated raw output is appended
exactly when the input has more than 10 lines. -/
theorem uv_sync_scenario (raw : Str) :
    compress_uv_sync (chars "Resolved 42 packages in 1.2s\n+ flask==3.0.0\n+ requests==2.31.0\n- old-package==1.0.0\n") =
      some (chars "[uv sync] Resolved 42 packages in 1.2s | +2 -1\n") ∧
    (uvSyncFold (rustLines raw)).2.1 = specSyncAdds raw ∧
    (uvSyncFold (rustLines raw)).2.2 = specSyncRemoves raw ∧
    (10 < (rustLines raw).length →
      compress_uv_sync raw = (dedup_lines raw).map fun d => uvSyncHead raw ++ d) ∧
    ((rustLines raw).length ≤ 10 → compress_uv_sync raw = some (uvSyncHead raw)) := by
  refine ⟨by decide, (uvSyncFold_counts (rustLines raw)).1,
    (uvSyncFold_counts (rustLines raw)).2.1, ?_, ?_⟩
  · intro h10
    rw [compress_uv_sync, if_pos h10]
  · intro h10
    rw [compress_uv_sync, if_neg (by omega)]

/-! ## Dispatch defaults -/

theorem gitCompress_default (raw u : Str) (h : u ∉ gitSubs) :
    gitCompress raw (some u) = truncate raw := by
  simp only [gitSubs, List.mem_cons, List.not_mem_nil, or_false, not_or] at h
  obtain ⟨n1, n2, n3, n4, n5, n6, n7, n8, n9, n10, n11, n12, n13, n14, n15, n16, n17,
    n18, n19, n20, n21, n22, n23, n24, n25, n26⟩ := h
  simp only [gitCompress, Option.getD_some]
  rw [if_neg n1, if_neg n2, if_neg n3,
    if_neg (by simp [n4, n5, n6]),
    if_neg (by simp [n7, n8, n9, n10, n11, n12]),
    if_neg n13, if_neg n14, if_neg n15,
    if_neg (by simp [n16, n17, n18]),
    if_neg (by simp [n19, n20]),
    if_neg n21, if_neg n22, if_neg n23, if_neg n24, if_neg n25, if_neg n26]

theorem cargoCompress_default (raw u : Str) (h : u ∉ cargoSubs) :
    cargoCompress raw (some u) = truncate raw := by
  simp only [cargoSubs, List.mem_cons, List.not_mem_nil, or_false, not_or] at h
  obtain ⟨m1, m2, m3, m4, m5, m6, m7, m8, m9, m10, m11, m12, m13, m14⟩ := h
  simp only [cargoCompress, Option.getD_some]
  rw [if_neg (by simp [m1, m2]),
    if_neg (by simp [m3, m4]),
    if_neg m5, if_neg m6, if_neg m7, if_neg m8, if_neg m9,
    if_neg (by simp [m10, m11]),
    if_neg m12, if_neg m13, if_neg m14]

theorem dockerCompress_default (raw u : Str) (h : u ∉ dockerSubs) :
    dockerCompress raw (some u) = truncate raw := by
  simp only [dockerSubs, List.mem_cons, List.not_mem_nil, or_false, not_or] at h
  obtain ⟨d1, d2, d3⟩ := h
  simp only [dockerCompress, Option.getD_some]
  rw [if_neg d1, if_neg d2, if_neg d3]

theorem pythonCompress_default (raw u : Str) (h : u ∉ pythonSubs) :
    pythonCompress raw (some u) = truncate raw := by
  simp only [pythonSubs, List.mem_cons, List.not_mem_nil, or_false, not_or] at h
  obtain ⟨p1, p2, p3, p4, p5, p6, p7, p8, p9, p10, p11, p12, p13, p14, p15⟩ := h
  simp only [pythonCompress, Option.getD_some]
  rw [if_neg (by simp [p1, p2]),
    if_neg p3, if_neg p4,
    if_neg (by simp [p5, p6, p7]),
    if_neg (by simp [p8, p9]),
    if_neg p10, if_neg p11, if_neg p12, if_neg p13,
    if_neg (by simp [p14, p15])]

/-- Claim C10: for the git, cargo, docker, and python compressors, an absent
hint and any hint outside the recognized subcommand set take the same default
dispatch arm: the shared `truncate` at the default caps. -/
theorem unrecognized_hint_falls_to_truncate (raw u1 u2 u3 u4 : Str)
    (h1 : u1 ∉ gitSubs) (h2 : u2 ∉ cargoSubs) (h3 : u3 ∉ dockerSubs)
    (h4 : u4 ∉ pythonSubs) :
    (gitCompress raw (some u1) = truncate raw ∧ gitCompress raw none = truncate raw) ∧
    (cargoCompress raw (some u2) = truncate raw ∧ cargoCompress raw none = truncate raw) ∧
    (dockerCompress raw (some u3) = truncate raw ∧ dockerCompress raw none = truncate raw) ∧
    (pythonCompress raw (some u4) = truncate raw ∧ pythonCompress raw none = truncate raw) := by
  refine ⟨⟨gitCompress_default raw u1 h1, ?_⟩, ⟨cargoCompress_default raw u2 h2, ?_⟩,
    ⟨dockerCompress_default raw u3 h3, ?_⟩, ⟨pythonCompress_default raw u4 h4, ?_⟩⟩
  · exact gitCompress_default raw [] (by decide)
  · exact cargoCompress_default raw [] (by decide)
  · exact dockerCompress_default raw [] (by decide)
  · exact pythonCompress_default raw [] (by decide)

/-! ## Closed evaluations: code-bug exhibit, counterexamples, witnesses -/

set_option maxRecDepth 200000

/-- Claim C1 (refuted by the code): the byte slices of the per-line cuts
panic on a multi-byte character at the cut position — `truncate_with`'s cut
at `maxLineLen`, blame's cut at 120 and grep's cut at 200 each hit a
non-character boundary on these inputs, modelled as `none`. -/
theorem byte_slice_panics :
    truncate_with (chars "aaé") 150 3 = none ∧
    compress_blame (List.replicate 119 'a' ++ ['é']) = none ∧
    compress_grep (chars "f:" ++ List.replicate 199 'a' ++ ['é']) = none :=
  ⟨by decide, by decide, by decide⟩

/-- Counterexample to claim C2 as stated: with a line cap of 1, the truncated
output has 3 lines — the marker's embedded leading newline adds a blank line,
exceeding `max lines + 1`. -/
theorem truncate_cap_exceeds_plus_one :
    truncate_with (chars "a\nb\nc") 1 10 =
      some (chars "a\n\n[cx] … 3 lines total, showing first 1") ∧
    (rustLines (chars "a\n\n[cx] … 3 lines total, showing first 1")).length = 3 :=
  ⟨by decide, by decide⟩

/-- Witness for `truncate_cap_bounds` at a concrete overflowing input. -/
theorem truncate_cap_bounds_witness :
    (rustLines (chars "hel …\n\n[cx] … 2 lines total, showing first 1")).length ≤ 1 + 2 ∧
    (∀ l ∈ (rustLines (chars "hel …\n\n[cx] … 2 lines total, showing first 1")).dropLast,
      l.length ≤ 3 + 2) ∧
    ((rustLines (chars "hello\nworld")).length ≤ 1 →
      ∀ l ∈ rustLines (chars "hel …\n\n[cx] … 2 lines total, showing first 1"),
        l.length ≤ 3 + 2) :=
  truncate_cap_bounds (chars "hello\nworld") 1 3
    (chars "hel …\n\n[cx] … 2 lines total, showing first 1") (by decide)

/-- Counterexample to claim C3 as stated: `"a\n"` is below both caps, yet
`truncate` drops its trailing newline, so the result is not the input. -/
theorem truncate_not_id_on_trailing_newline :
    (rustLines (chars "a\n")).length ≤ 150 ∧
    (∀ l ∈ rustLines (chars "a\n"), byteLen l ≤ 300) ∧
    truncate (chars "a\n") ≠ some (chars "a\n") :=
  ⟨by decide, by decide, by decide⟩

/-- Witness for `truncate_id_below_cap` at a concrete two-line input. -/
theorem truncate_id_below_cap_witness :
    truncate_with (chars "ab\ncd") 150 300 = some (chars "ab\ncd") :=
  truncate_id_below_cap (chars "ab\ncd") 150 300 (by decide) (by decide) (by decide)
    (by decide)

/-- Counterexample to claim C4 as stated: non-adjacent matches of file `a`
open two separate groups and the header counts 3 files, not 2 distinct ones. -/
theorem grep_nonadjacent_new_group :
    compress_grep (chars "a:1\nb:2\na:3") =
      some (chars "[grep] 3 matches in 3 files\n\n── a (1 hits)\n  1\n\n── b (1 hits)\n  2\n\n── a (1 hits)\n  3\n") ∧
    (grepAccum (rustLines (chars "a:1\nb:2\na:3")) []).map Prod.fst =
      [chars "a", chars "b", chars "a"] :=
  ⟨by decide, by decide⟩

/-- Witness for `grep_groups_runs` at a concrete two-file input. -/
theorem grep_groups_runs_witness :
    grepAccum (rustLines (chars "a:1\nb:2")) [] =
      specGroups ((rustLines (chars "a:1\nb:2")).filterMap splitColon) ∧
    (chars "[grep] " ++ natStr (rustLines (chars "a:1\nb:2")).length ++
      chars " matches in " ++
      natStr (specGroups ((rustLines (chars "a:1\nb:2")).filterMap splitColon)).length ++
      chars " files\n") <+:
      chars "[grep] 2 matches in 2 files\n\n── a (1 hits)\n  1\n\n── b (1 hits)\n  2\n" :=
  grep_groups_runs (chars "a:1\nb:2")
    (chars "[grep] 2 matches in 2 files\n\n── a (1 hits)\n  1\n\n── b (1 hits)\n  2\n")
    (by decide) (by decide)

/-- Counterexample to claim C5 as stated: `git status` on marker-free
nonempty input emits its structured summary, not the truncation of the raw
input — the input text is dropped entirely. -/
theorem status_drops_unrecognized_input :
    compress_status (chars "hello world") = chars "[branch] (detached)\n[clean]\n" ∧
    truncate (chars "hello world") = some (chars "hello world") ∧
    containsSub (chars "[branch] (detached)\n[clean]\n") (chars "hello") = false :=
  ⟨by decide, by decide, by decide⟩

/-- Witness for `fallback_to_truncate` at a concrete marker-free input. -/
theorem fallback_to_truncate_witness :
    compress_test (chars "hello world") = truncate (chars "hello world") ∧
    compress_pytest (chars "hello world") = truncate (chars "hello world") :=
  fallback_to_truncate (chars "hello world") (by decide) (by decide)

/-- Counterexample to claim C6 as stated: a run of two identical 301-byte
lines is collapsed and annotated, but the subsequent `truncate` pass cuts the
line at 300 bytes, destroying the `(×2)` annotation. -/
theorem dedup_annotation_lost_by_truncate :
    dedup_lines (List.replicate 301 'a' ++ '\n' :: List.replicate 301 'a') =
      some (List.replicate 300 'a' ++ chars " …") ∧
    containsSub (List.replicate 300 'a' ++ chars " …") (chars "(×2)") = false :=
  ⟨by decide, by decide⟩

/-- Witness for `status_clean_scenario` at an input with no tracking line. -/
theorem status_clean_scenario_witness :
    compress_status (chars "On branch main\nnothing to commit, working tree clean\n") =
      chars "[branch] main\n[clean]\n" ∧
    (∃ rest, compress_status (chars "On branch dev") =
      chars "[branch] " ++ statusBranch (chars "On branch dev") ++ chars "\n" ++ rest) ∧
    ((chars "[clean]") ∈ rustLines (compress_status (chars "On branch dev")) ↔
      statusFold (rustLines (chars "On branch dev")) .none = ([], [], [])) :=
  status_clean_scenario (chars "On branch dev") (Or.inl (by decide))

/-- Witness for `diff_hunk_accounting` at the empty input. -/
theorem diff_hunk_accounting_witness :
    compress_diff (chars "diff --git a/src/main.rs b/src/main.rs\n--- a/src/main.rs\n+++ b/src/main.rs\n@@ -1,3 +1,4 @@\n+use std::io;\n fn main() \x7b\n-    println!(\"old\");\n+    println!(\"new\");\n \x7d\n") =
      chars "[diff]\n  src/main.rs: +2 -1\n" ∧
    compress_diff (chars "") = chars "[diff]\n" ++
      (if specDiffBlocks (rustLines (chars "")) = [] then chars "  (no changes)\n"
       else ((specDiffBlocks (rustLines (chars ""))).map fun e =>
         diffEntry e.1 e.2.1 e.2.2 ++ chars "\n").flatten) :=
  diff_hunk_accounting (chars "") (by decide)

/-- Witness for `uv_sync_scenario`: a two-line input stays without the
deduplicated tail. -/
theorem uv_sync_scenario_witness :
    (rustLines (chars "+ flask\n- requests")).length ≤ 10 ∧
    compress_uv_sync (chars "+ flask\n- requests") =
      some (uvSyncHead (chars "+ flask\n- requests")) :=
  ⟨by decide, (uv_sync_scenario (chars "+ flask\n- requests")).2.2.2.2 (by decide)⟩

/-- Witness for `unrecognized_hint_falls_to_truncate` at a concrete
unrecognized hint. -/
theorem unrecognized_hint_witness :
    (gitCompress (chars "hi") (some (chars "frobnicate")) = truncate (chars "hi") ∧
      gitCompress (chars "hi") none = truncate (chars "hi")) ∧
    (cargoCompress (chars "hi") (some (chars "frobnicate")) = truncate (chars "hi") ∧
      cargoCompress (chars "hi") none = truncate (chars "hi")) ∧
    (dockerCompress (chars "hi") (some (chars "frobnicate")) = truncate (chars "hi") ∧
      dockerCompress (chars "hi") none = truncate (chars "hi")) ∧
    (pythonCompress (chars "hi") (some (chars "frobnicate")) = truncate (chars "hi") ∧
      pythonCompress (chars "hi") none = truncate (chars "hi")) :=
  unrecognized_hint_falls_to_truncate (chars "hi") (chars "frobnicate") (chars "frobnicate")
    (chars "frobnicate") (chars "frobnicate") (by decide) (by decide) (by decide) (by decide)
